import Mathlib

/-!
Verification of the `types-linq` repository's `MoreEnumerable` operators
(`src/types_linq/more/more_enumerable.py`) and of the spec-described
`CachedSequence` / `OrderedSequence` components, against the repository's
natural-language specification.

Conventions of the shallow embedding:
* A re-iterable source sequence is a `List`.
* A Python generator is embedded twice, at two granularities that are proved
  consistent: a direct denotational function (the list the generator produces
  when driven to completion) and a small-step cursor machine (one transition
  per suspension point) used for the statements about independent cursors.
* Python's list-based stack has its top at the list's end; the embedding keeps
  the top at the head of a `List`, so Python's `append`/`pop()` become
  head-cons/head-match, and appending `reversed(children)` one by one becomes
  prepending `children` in order.
* Key sets (`set` of keys in `except_by`) are lists of keys used only through
  membership.
* A fallible user callback is an `Except`-valued function; a raised exception
  is the `Except.error` payload, carried through unchanged.
-/

/-! ### except_by / distinct_by, denotational embedding

Python source (`MoreEnumerable.except_by`):
```
def inner():
    s = {key_selector(s) for s in second}
    for elem in self:
        key = key_selector(elem)
        if key in s:
            continue
        s.add(key)
        yield elem
return MoreEnumerable(inner)
```
`exceptByRun ks rest seen` is the list of elements the loop yields when the
remaining source is `rest` and the mutable key set currently holds `seen`.
-/

def exceptByRun {α κ : Type} [DecidableEq κ] (ks : α → κ) : List α → List κ → List α
  | [], _ => []
  | e :: rest, seen =>
      if ks e ∈ seen then exceptByRun ks rest seen
      else e :: exceptByRun ks rest (ks e :: seen)

/-- The full traversal of `except_by(second, key_selector)` on source `src`:
the key set starts as the keys of `second`. -/
def exceptBy {α κ : Type} [DecidableEq κ] (src second : List α) (ks : α → κ) : List α :=
  exceptByRun ks src (second.map ks)

/-- `MoreEnumerable.distinct_by` is literally `self.except_by((), key_selector)`. -/
def distinctBy {α κ : Type} [DecidableEq κ] (src : List α) (ks : α → κ) : List α :=
  exceptBy src [] ks

/-- Spec-side reference for `except_by`, written from the spec's words: keep a
source element exactly when its key is not a key of `second` and no earlier
source element has the same key. `pre` is the list of source elements already
examined (earlier in encounter order). -/
def exceptBySpecAux {α κ : Type} [DecidableEq κ] (ks : α → κ) (secondKeys : List κ) :
    List α → List α → List α
  | _, [] => []
  | pre, e :: rest =>
      if ks e ∈ secondKeys ∨ ks e ∈ pre.map ks then
        exceptBySpecAux ks secondKeys (pre ++ [e]) rest
      else
        e :: exceptBySpecAux ks secondKeys (pre ++ [e]) rest

def exceptBySpec {α κ : Type} [DecidableEq κ] (src second : List α) (ks : α → κ) : List α :=
  exceptBySpecAux ks (second.map ks) [] src

lemma exceptByRun_eq_specAux {α κ : Type} [DecidableEq κ] (ks : α → κ)
    (secondKeys : List κ) :
    ∀ (rest : List α) (seen : List κ) (pre : List α),
      (∀ k, k ∈ seen ↔ k ∈ secondKeys ∨ k ∈ pre.map ks) →
      exceptByRun ks rest seen = exceptBySpecAux ks secondKeys pre rest := by
  intro rest
  induction rest with
  | nil => intro seen pre _; rfl
  | cons e rest ih =>
      intro seen pre hinv
      by_cases hmem : ks e ∈ seen
      · rw [exceptByRun, if_pos hmem, exceptBySpecAux, if_pos ((hinv (ks e)).mp hmem)]
        apply ih
        intro k
        rw [hinv k]
        constructor
        · rintro (h | h)
          · exact Or.inl h
          · refine Or.inr ?_
            simp only [List.map_append, List.map_cons, List.map_nil, List.mem_append]
            exact Or.inl h
        · rintro (h | h)
          · exact Or.inl h
          · simp only [List.map_append, List.map_cons, List.map_nil, List.mem_append,
              List.mem_singleton] at h
            rcases h with h | h
            · exact Or.inr h
            · subst h
              exact (hinv (ks e)).mp hmem
      · rw [exceptByRun, if_neg hmem, exceptBySpecAux,
          if_neg (fun h => hmem ((hinv (ks e)).mpr h))]
        congr 1
        apply ih
        intro k
        simp only [List.mem_cons, hinv k, List.map_append, List.map_cons, List.map_nil,
          List.mem_append, List.mem_singleton]
        tauto

lemma exceptBy_eq_spec {α κ : Type} [DecidableEq κ] (src second : List α) (ks : α → κ) :
    exceptBy src second ks = exceptBySpec src second ks := by
  apply exceptByRun_eq_specAux
  intro k
  simp

lemma exceptByRun_sublist {α κ : Type} [DecidableEq κ] (ks : α → κ) :
    ∀ (rest : List α) (seen : List κ), List.Sublist (exceptByRun ks rest seen) rest := by
  intro rest
  induction rest with
  | nil => intro seen; exact List.Sublist.refl []
  | cons e rest ih =>
      intro seen
      rw [exceptByRun]
      by_cases hmem : ks e ∈ seen
      · rw [if_pos hmem]
        exact List.Sublist.cons e (ih seen)
      · rw [if_neg hmem]
        exact List.Sublist.cons₂ e (ih (ks e :: seen))

lemma exceptByRun_keys_not_seen {α κ : Type} [DecidableEq κ] (ks : α → κ) :
    ∀ (rest : List α) (seen : List κ) (e : α),
      e ∈ exceptByRun ks rest seen → ks e ∉ seen := by
  intro rest
  induction rest with
  | nil => intro seen e h; simp [exceptByRun] at h
  | cons f rest ih =>
      intro seen e h
      rw [exceptByRun] at h
      by_cases hmem : ks f ∈ seen
      · rw [if_pos hmem] at h
        exact ih seen e h
      · rw [if_neg hmem] at h
        rcases List.mem_cons.mp h with h | h
        · subst h; exact hmem
        · intro hk
          exact ih _ e h (List.mem_cons_of_mem _ hk)

lemma exceptByRun_keys_nodup {α κ : Type} [DecidableEq κ] (ks : α → κ) :
    ∀ (rest : List α) (seen : List κ), ((exceptByRun ks rest seen).map ks).Nodup := by
  intro rest
  induction rest with
  | nil => intro seen; simp [exceptByRun]
  | cons e rest ih =>
      intro seen
      rw [exceptByRun]
      by_cases hmem : ks e ∈ seen
      · rw [if_pos hmem]; exact ih seen
      · rw [if_neg hmem]
        simp only [List.map_cons, List.nodup_cons]
        refine ⟨?_, ih (ks e :: seen)⟩
        intro hk
        rcases List.mem_map.mp hk with ⟨f, hf, hkf⟩
        exact exceptByRun_keys_not_seen ks rest _ f hf (by rw [hkf]; exact List.mem_cons_self _ _)

lemma exceptByRun_complete {α κ : Type} [DecidableEq κ] (ks : α → κ) :
    ∀ (rest : List α) (seen : List κ) (e : α),
      e ∈ rest → ks e ∉ seen → ∃ f ∈ exceptByRun ks rest seen, ks f = ks e := by
  intro rest
  induction rest with
  | nil => intro seen e h; simp at h
  | cons g rest ih =>
      intro seen e h hns
      rcases List.mem_cons.mp h with h | h
      · subst h
        rw [exceptByRun, if_neg hns]
        exact ⟨e, List.mem_cons_self _ _, rfl⟩
      · rw [exceptByRun]
        by_cases hmem : ks g ∈ seen
        · rw [if_pos hmem]
          exact ih seen e h hns
        · rw [if_neg hmem]
          by_cases hsame : ks e = ks g
          · exact ⟨g, List.mem_cons_self _ _, hsame.symm⟩
          · have hns' : ks e ∉ (ks g :: seen) := by
              intro hk
              rcases List.mem_cons.mp hk with hk | hk
              · exact hsame hk
              · exact hns hk
            rcases ih (ks g :: seen) e h hns' with ⟨f, hf, hkf⟩
            exact ⟨f, List.mem_cons_of_mem _ hf, hkf⟩

/-- C4: `except_by(second, key_selector)` yields exactly those source elements
whose key is neither a key of `second` nor the key of any earlier source
element (equivalently, of any earlier-yielded element), in source encounter
order (a sublist of the source), with at most one element per distinct key and
no key of `second` ever appearing; and `distinct_by(key_selector)` is
`except_by` with an empty `second`. -/
theorem exceptBy_membership_grouping {α κ : Type} [DecidableEq κ]
    (src second : List α) (ks : α → κ) :
    exceptBy src second ks = exceptBySpec src second ks ∧
    distinctBy src ks = exceptBy src [] ks ∧
    List.Sublist (exceptBy src second ks) src ∧
    ((exceptBy src second ks).map ks).Nodup ∧
    (∀ e ∈ exceptBy src second ks, ks e ∉ second.map ks) ∧
    (∀ e ∈ src, ks e ∉ second.map ks → ∃ f ∈ exceptBy src second ks, ks f = ks e) := by
  refine ⟨exceptBy_eq_spec src second ks, rfl, exceptByRun_sublist ks src _,
    exceptByRun_keys_nodup ks src _, ?_, ?_⟩
  · intro e he
    exact exceptByRun_keys_not_seen ks src _ e he
  · intro e he hk
    exact exceptByRun_complete ks src _ e he hk

/-- Witness for C4 at a concrete input: source `[3, 1, 3, 2, 1]`,
`second = [2]`, identity keys. -/
theorem exceptBy_membership_grouping_witness :
    exceptBy [3, 1, 3, 2, 1] [2] (fun n : Nat => n) = [3, 1] ∧
    ∃ f ∈ exceptBy [3, 1, 3, 2, 1] [2] (fun n : Nat => n), f = 1 := by
  have h := exceptBy_membership_grouping [3, 1, 3, 2, 1] [2] (fun n : Nat => n)
  refine ⟨by decide, ?_⟩
  rcases h.2.2.2.2.2 1 (by decide) (by decide) with ⟨f, hf, hkf⟩
  exact ⟨f, hf, hkf⟩

/-! ### aggregate_right

Python source (`MoreEnumerable.aggregate_right`):
```
it = iter(self.reverse())
if len(args) == 3:
    seed, func, result_selector = args
elif len(args) == 2:
    seed, func, result_selector = args[0], args[1], lambda x: x
else:  # len(args) == 1
    func, result_selector = args[0], lambda x: x
    try:
        seed = next(it)
    except StopIteration:
        self._raise_empty_sequence()
for elem in it:
    seed = func(elem, seed)
return result_selector(seed)
```
`Enumerable.reverse` is not part of the sources under review (only its
declaration is); it is the standard reversal combinator and is embedded as
`List.reverse`. The three Python arities become three definitions; the
no-seed arity is fallible (`none` models the raised empty-sequence error). -/

def aggregateRightLoop {α β : Type} (func : α → β → β) : β → List α → β
  | seed, [] => seed
  | seed, e :: rest => aggregateRightLoop func (func e seed) rest

def aggregateRight3 {α β γ : Type} (src : List α) (seed : β) (func : α → β → β)
    (resultSelector : β → γ) : γ :=
  resultSelector (aggregateRightLoop func seed src.reverse)

def aggregateRight2 {α β : Type} (src : List α) (seed : β) (func : α → β → β) : β :=
  aggregateRightLoop func seed src.reverse

def aggregateRight1 {α : Type} (src : List α) (func : α → α → α) : Option α :=
  match src.reverse with
  | [] => none
  | seed :: rest => some (aggregateRightLoop func seed rest)

lemma aggregateRightLoop_eq_foldl {α β : Type} (func : α → β → β) :
    ∀ (l : List α) (seed : β),
      aggregateRightLoop func seed l = l.foldl (fun acc e => func e acc) seed := by
  intro l
  induction l with
  | nil => intro seed; rfl
  | cons e rest ih => intro seed; rw [aggregateRightLoop, ih, List.foldl_cons]

lemma aggregateRight2_eq_foldr {α β : Type} (src : List α) (seed : β) (func : α → β → β) :
    aggregateRight2 src seed func = src.foldr func seed := by
  rw [aggregateRight2, aggregateRightLoop_eq_foldl, List.foldl_reverse]

/-- C5: `aggregate_right` raises the empty-sequence fault exactly when called
in its one-argument (no-seed) form on an empty source; with a seed (two- and
three-argument forms) an empty source never faults and the result is the seed
passed through the result selector (the seed itself when no selector is
given). The folds are right folds over the source. -/
theorem aggregateRight_empty_behaviour {α β γ : Type}
    (src : List α) (seed : β) (func2 : α → β → β) (func1 : α → α → α)
    (resultSelector : β → γ) :
    (aggregateRight1 src func1 = none ↔ src = []) ∧
    aggregateRight3 ([] : List α) seed func2 resultSelector = resultSelector seed ∧
    aggregateRight2 ([] : List α) seed func2 = seed ∧
    aggregateRight3 src seed func2 resultSelector = resultSelector (src.foldr func2 seed) ∧
    aggregateRight2 src seed func2 = src.foldr func2 seed := by
  refine ⟨?_, rfl, rfl, ?_, aggregateRight2_eq_foldr src seed func2⟩
  · rw [aggregateRight1]
    constructor
    · intro h
      cases hrev : src.reverse with
      | nil => exact List.reverse_eq_nil_iff.mp hrev
      | cons a l => rw [hrev] at h; simp at h
    · intro h
      subst h
      rfl
  · rw [aggregateRight3, aggregateRightLoop_eq_foldl, List.foldl_reverse]

/-! ### Small-step cursor machines

A Python generator suspended mid-run is a cursor. A machine is a step
function `σ → Option (Option α × σ)`: `none` means the generator is
exhausted, `some (some a, s)` is a step that yields `a`, `some (none, s)` is
internal work between yields (e.g. skipping a duplicate key). Each traversal
of an enumerable built from a generator factory starts from a fresh initial
state (modelled from the spec: the `Enumerable` wrapper re-invokes the
generator factory on every iteration, sharing no cursor state). -/

def mcollect {σ α : Type} (step : σ → Option (Option α × σ)) : Nat → σ → List α × σ × Bool
  | 0, s => ([], s, false)
  | n + 1, s =>
      match step s with
      | none => ([], s, true)
      | some (a, s') =>
          let r := mcollect step n s'
          (a.toList ++ r.1, r.2.1, r.2.2)

/-- Two cursors over the same machine, advanced in an arbitrary interleaving:
`true` in the schedule advances the first cursor, `false` the second.
Advancing an exhausted cursor is a no-op. -/
def execSched {σ α : Type} (step : σ → Option (Option α × σ)) :
    List Bool → σ → σ → List α × List α
  | [], _, _ => ([], [])
  | b :: bs, s1, s2 =>
      if b then
        match step s1 with
        | none => execSched step bs s1 s2
        | some (a, s1') =>
            let r := execSched step bs s1' s2
            (a.toList ++ r.1, r.2)
      else
        match step s2 with
        | none => execSched step bs s1 s2
        | some (a, s2') =>
            let r := execSched step bs s1 s2'
            (r.1, a.toList ++ r.2)

def countTrue : List Bool → Nat
  | [] => 0
  | b :: bs => (if b then 1 else 0) + countTrue bs

def countFalse : List Bool → Nat
  | [] => 0
  | b :: bs => (if b then 0 else 1) + countFalse bs

lemma mcollect_of_step_none {σ α : Type} (step : σ → Option (Option α × σ)) (s : σ)
    (h : step s = none) : ∀ n, (mcollect step n s).1 = [] := by
  intro n
  cases n with
  | zero => rfl
  | succ n => rw [mcollect, h]

lemma execSched_fst {σ α : Type} (step : σ → Option (Option α × σ)) :
    ∀ (bs : List Bool) (s1 s2 : σ),
      (execSched step bs s1 s2).1 = (mcollect step (countTrue bs) s1).1 := by
  intro bs
  induction bs with
  | nil => intro s1 s2; rfl
  | cons b bs ih =>
      intro s1 s2
      cases b with
      | true =>
          rw [execSched, if_pos rfl, countTrue, if_pos rfl]
          cases hs : step s1 with
          | none =>
              rw [ih s1 s2, mcollect_of_step_none step s1 hs,
                mcollect_of_step_none step s1 hs]
          | some p =>
              rcases p with ⟨a, s1'⟩
              show (a.toList ++ (execSched step bs s1' s2).1) = _
              rw [ih s1' s2]
              rw [show (1 : Nat) + countTrue bs = countTrue bs + 1 by omega, mcollect, hs]
      | false =>
          rw [execSched, if_neg (by simp), countTrue, if_neg (by simp)]
          cases hs : step s2 with
          | none => rw [ih s1 s2]; rw [show (0 : Nat) + countTrue bs = countTrue bs by omega]
          | some p =>
              rcases p with ⟨a, s2'⟩
              show (execSched step bs s1 s2').1 = _
              rw [ih s1 s2']
              rw [show (0 : Nat) + countTrue bs = countTrue bs by omega]

lemma execSched_snd {σ α : Type} (step : σ → Option (Option α × σ)) :
    ∀ (bs : List Bool) (s1 s2 : σ),
      (execSched step bs s1 s2).2 = (mcollect step (countFalse bs) s2).1 := by
  intro bs
  induction bs with
  | nil => intro s1 s2; rfl
  | cons b bs ih =>
      intro s1 s2
      cases b with
      | true =>
          rw [execSched, if_pos rfl, countFalse, if_pos rfl]
          cases hs : step s1 with
          | none => rw [ih s1 s2]; rw [show (0 : Nat) + countFalse bs = countFalse bs by omega]
          | some p =>
              rcases p with ⟨a, s1'⟩
              show (execSched step bs s1' s2).2 = _
              rw [ih s1' s2]
              rw [show (0 : Nat) + countFalse bs = countFalse bs by omega]
      | false =>
          rw [execSched, if_neg (by simp), countFalse, if_neg (by simp)]
          cases hs : step s2 with
          | none =>
              rw [ih s1 s2, mcollect_of_step_none step s2 hs,
                mcollect_of_step_none step s2 hs]
          | some p =>
              rcases p with ⟨a, s2'⟩
              show (a.toList ++ (execSched step bs s1 s2').2) = _
              rw [ih s1 s2']
              rw [show (1 : Nat) + countFalse bs = countFalse bs + 1 by omega, mcollect, hs]

lemma mcollect_stable {σ α : Type} (step : σ → Option (Option α × σ)) :
    ∀ (n : Nat) (s : σ), (mcollect step n s).2.2 = true →
      ∀ m, n ≤ m → (mcollect step m s).1 = (mcollect step n s).1 := by
  intro n
  induction n with
  | zero => intro s h; simp [mcollect] at h
  | succ n ih =>
      intro s h m hm
      rcases Nat.exists_eq_add_of_le hm with ⟨k, hk⟩
      subst hk
      rw [show n + 1 + k = (n + k) + 1 by omega]
      rw [mcollect] at h
      rw [mcollect, mcollect]
      cases hs : step s with
      | none => rfl
      | some p =>
          rcases p with ⟨a, s'⟩
          rw [hs] at h
          simp only at h ⊢
          rw [ih s' h (n + k) (by omega)]

/-! ### except_by as a cursor machine

`ExcState.start second rest` is a freshly created generator: the key set for
`second` has not been computed yet (Python builds it on the first advance).
`ExcState.going seen rest` is the suspended loop. -/

inductive ExcState (α κ : Type) where
  | start (second : List α) (rest : List α)
  | going (seen : List κ) (rest : List α)
deriving DecidableEq

def excStep {α κ : Type} [DecidableEq κ] (ks : α → κ) :
    ExcState α κ → Option (Option α × ExcState α κ)
  | .start second rest => some (none, .going (second.map ks) rest)
  | .going _ [] => none
  | .going seen (e :: rest) =>
      if ks e ∈ seen then some (none, ExcState.going seen rest)
      else some (some e, ExcState.going (ks e :: seen) rest)

lemma mcollect_excStep_going {α κ : Type} [DecidableEq κ] (ks : α → κ) :
    ∀ (rest : List α) (n : Nat) (seen : List κ), rest.length ≤ n →
      (mcollect (excStep ks) n (.going seen rest)).1 = exceptByRun ks rest seen := by
  intro rest
  induction rest with
  | nil =>
      intro n seen _
      cases n with
      | zero => rfl
      | succ n => simp [mcollect, excStep, exceptByRun]
  | cons e rest ih =>
      intro n seen hn
      cases n with
      | zero => simp at hn
      | succ n =>
          simp only [List.length_cons] at hn
          rw [exceptByRun]
          by_cases hmem : ks e ∈ seen
          · simp only [mcollect, excStep, if_pos hmem, Option.toList, List.nil_append]
            rw [ih n seen (by omega)]
          · simp only [mcollect, excStep, if_neg hmem, Option.toList, List.cons_append,
              List.nil_append]
            rw [ih n (ks e :: seen) (by omega)]

lemma mcollect_excStep_start {α κ : Type} [DecidableEq κ] (ks : α → κ)
    (src second : List α) :
    ∀ n, src.length + 1 ≤ n →
      (mcollect (excStep ks) n (.start second src)).1 = exceptBy src second ks := by
  intro n hn
  cases n with
  | zero => simp at hn
  | succ n =>
      rw [mcollect]
      show (mcollect (excStep ks) n (ExcState.going (second.map ks) src)).1 = _
      exact mcollect_excStep_going ks src n (second.map ks) (by omega)

/-! ### interleave

Python source (`MoreEnumerable.interleave`):
```
def inner():
    its = [iter(self)]
    for iter_ in iters:
        its.append(iter(iter_))
    while its:
        i = 0
        while i < len(its):
            try:
                yield next(its[i])
                i += 1
            except StopIteration:
                its.pop(i)
return MoreEnumerable(inner)
```
The running state `(done, todo)` is the Python pair `(its, i)` viewed as
`its = done ++ todo`, `i = done.length`: `done` holds the iterators already
advanced in the current round, `todo` those still to visit. An exhausted
iterator (`todo`'s head empty) is removed and the round continues at once
with the next remaining iterator; when `todo` is empty the inner loop ends
and the outer loop restarts the round (`i = 0`). -/

def interleaveRound {α : Type} : List (List α) → List α × List (List α)
  | [] => ([], [])
  | [] :: its => interleaveRound its
  | (e :: es) :: its =>
      let r := interleaveRound its
      (e :: r.1, es :: r.2)

def interleaveGo {α : Type} : List (List α) → List (List α) → List α
  | [], [] => []
  | d :: ds, [] => interleaveGo [] (d :: ds)
  | done, [] :: todo => interleaveGo done todo
  | done, (e :: es) :: todo => e :: interleaveGo (done ++ [es]) todo
termination_by done todo =>
  2 * ((done.map List.length).sum + (todo.map List.length).sum) + 2 * done.length + todo.length
decreasing_by
  all_goals simp [List.map_append, List.sum_append]
  all_goals omega

/-- `interleave(*iters)` on receiver `self`: round-robin over `self` followed
by the arguments in order. -/
def interleave {α : Type} (self : List α) (iters : List (List α)) : List α :=
  interleaveGo [] (self :: iters)

def ivStep {α : Type} :
    List (List α) × List (List α) → Option (Option α × (List (List α) × List (List α)))
  | ([], []) => none
  | (d :: ds, []) => some (none, ([], d :: ds))
  | (done, [] :: todo) => some (none, (done, todo))
  | (done, (e :: es) :: todo) => some (some e, (done ++ [es], todo))

def ivFuel {α : Type} (s : List (List α) × List (List α)) : Nat :=
  2 * ((s.1.map List.length).sum + (s.2.map List.length).sum) + 2 * s.1.length + s.2.length

lemma interleaveGo_nil_nil {α : Type} : interleaveGo ([] : List (List α)) [] = [] := by
  simp [interleaveGo]

lemma interleaveGo_reset {α : Type} (d : List α) (ds : List (List α)) :
    interleaveGo (d :: ds) [] = interleaveGo [] (d :: ds) := by
  simp [interleaveGo]

lemma interleaveGo_pop {α : Type} (done todo : List (List α)) :
    interleaveGo done ([] :: todo) = interleaveGo done todo := by
  cases done with
  | nil => simp [interleaveGo]
  | cons d ds => simp [interleaveGo]

lemma interleaveGo_yield {α : Type} (done todo : List (List α)) (e : α) (es : List α) :
    interleaveGo done ((e :: es) :: todo) = e :: interleaveGo (done ++ [es]) todo := by
  cases done with
  | nil => simp [interleaveGo]
  | cons d ds => simp [interleaveGo]

lemma mcollect_ivStep_eq {α : Type} :
    ∀ (n : Nat) (done todo : List (List α)), ivFuel (done, todo) ≤ n →
      (mcollect ivStep n (done, todo)).1 = interleaveGo done todo := by
  intro n
  induction n using Nat.strong_induction_on with
  | _ n ih =>
      intro done todo hf
      match done, todo with
      | [], [] =>
          rw [interleaveGo_nil_nil]
          cases n with
          | zero => rfl
          | succ n => simp [mcollect, ivStep]
      | d :: ds, [] =>
          have h2 : 2 ≤ ivFuel ((d :: ds : List (List α)), ([] : List (List α))) := by
            simp [ivFuel]; omega
          cases n with
          | zero => omega
          | succ n =>
              rw [interleaveGo_reset]
              simp only [mcollect, ivStep, Option.toList, List.nil_append]
              apply ih n (by omega)
              have : ivFuel (([] : List (List α)), d :: ds) + 1 ≤
                  ivFuel ((d :: ds : List (List α)), []) := by
                simp [ivFuel]; omega
              omega
      | done, [] :: todo =>
          have h1 : 1 ≤ ivFuel (done, [] :: todo) := by simp [ivFuel]; omega
          cases n with
          | zero => omega
          | succ n =>
              rw [interleaveGo_pop]
              simp only [mcollect, ivStep, Option.toList, List.nil_append]
              apply ih n (by omega)
              have : ivFuel (done, todo) + 1 ≤ ivFuel (done, [] :: todo) := by
                simp [ivFuel]; omega
              omega
      | done, (e :: es) :: todo =>
          have h1 : 1 ≤ ivFuel (done, (e :: es) :: todo) := by simp [ivFuel]; omega
          cases n with
          | zero => omega
          | succ n =>
              rw [interleaveGo_yield]
              simp only [mcollect, ivStep, Option.toList, List.cons_append, List.nil_append]
              congr 1
              apply ih n (by omega)
              have : ivFuel (done ++ [es], todo) + 1 ≤ ivFuel (done, (e :: es) :: todo) := by
                simp [ivFuel, List.map_append, List.sum_append]; omega
              omega

lemma interleaveGo_round {α : Type} :
    ∀ (todo done : List (List α)),
      interleaveGo done todo =
        (interleaveRound todo).1 ++ interleaveGo (done ++ (interleaveRound todo).2) [] := by
  intro todo
  induction todo with
  | nil => intro done; simp [interleaveRound]
  | cons t rest ih =>
      intro done
      cases t with
      | nil =>
          rw [interleaveGo_pop, ih done, interleaveRound]
      | cons e es =>
          rw [interleaveGo_yield, ih (done ++ [es])]
          simp only [interleaveRound, List.cons_append, List.append_assoc, List.cons_append,
            List.singleton_append]
          rfl

lemma interleaveGo_done_comm {α : Type} (d : List (List α)) :
    interleaveGo d [] = interleaveGo [] d := by
  cases d with
  | nil => rfl
  | cons x xs => exact interleaveGo_reset x xs

lemma interleaveRound_fst {α : Type} :
    ∀ its : List (List α), (interleaveRound its).1 = its.filterMap List.head? := by
  intro its
  induction its with
  | nil => rfl
  | cons t rest ih =>
      cases t with
      | nil => simp [interleaveRound, ih]
      | cons e es => simp [interleaveRound, ih]

lemma interleaveRound_snd {α : Type} :
    ∀ its : List (List α),
      (interleaveRound its).2 = (its.filter (fun l => !l.isEmpty)).map List.tail := by
  intro its
  induction its with
  | nil => rfl
  | cons t rest ih =>
      cases t with
      | nil => simp [interleaveRound, ih, List.filter]
      | cons e es => simp [interleaveRound, ih, List.filter]

lemma interleaveGo_perm {α : Type} :
    ∀ (n : Nat) (done todo : List (List α)), ivFuel (done, todo) ≤ n →
      (interleaveGo done todo).Perm (done ++ todo).flatten := by
  intro n
  induction n using Nat.strong_induction_on with
  | _ n ih =>
      intro done todo hf
      match done, todo with
      | [], [] => simp [interleaveGo_nil_nil]
      | d :: ds, [] =>
          rw [interleaveGo_reset]
          have h2 : 2 ≤ ivFuel ((d :: ds : List (List α)), ([] : List (List α))) := by
            simp [ivFuel]; omega
          have hlt : ivFuel (([] : List (List α)), d :: ds) + 1 ≤
              ivFuel ((d :: ds : List (List α)), []) := by
            simp [ivFuel]; omega
          have := ih (n - 1) (by omega) [] (d :: ds) (by omega)
          simpa using this
      | done, [] :: todo =>
          rw [interleaveGo_pop]
          have h1 : 1 ≤ ivFuel (done, [] :: todo) := by simp [ivFuel]; omega
          have hlt : ivFuel (done, todo) + 1 ≤ ivFuel (done, [] :: todo) := by
            simp [ivFuel]; omega
          have := ih (n - 1) (by omega) done todo (by omega)
          simpa using this
      | done, (e :: es) :: todo =>
          rw [interleaveGo_yield]
          have h1 : 1 ≤ ivFuel (done, (e :: es) :: todo) := by simp [ivFuel]; omega
          have hlt : ivFuel (done ++ [es], todo) + 1 ≤ ivFuel (done, (e :: es) :: todo) := by
            simp [ivFuel, List.map_append, List.sum_append]; omega
          have hperm := ih (n - 1) (by omega) (done ++ [es]) todo (by omega)
          have hjoin : ((done ++ [es]) ++ todo).flatten = done.flatten ++ (es ++ todo.flatten) := by
            simp
          rw [hjoin] at hperm
          have : (done ++ (e :: es) :: todo).flatten = done.flatten ++ (e :: (es ++ todo.flatten)) := by
            simp
          rw [this]
          exact (hperm.cons e).trans List.perm_middle.symm

/-! ### flatten2 as a cursor machine

Python source (`MoreEnumerable.flatten2`):
```
def inner():
    stack: List[Iterator[object]] = [iter(self)]
    while stack:
        it = stack.pop()
        while True:
            try:
                elem = next(it)
            except StopIteration:
                break
            nested = selector(elem)
            if nested is not None:
                stack.append(it)
                it = iter(nested)
                continue
            yield elem
return MoreEnumerable(inner)
```
The machine state is the current iterator consed onto the stack (top first):
the fresh generator's state on source `src` is `[src]`. -/

def flStep {α : Type} (sel : α → Option (List α)) :
    List (List α) → Option (Option α × List (List α))
  | [] => none
  | [] :: stack => some (none, stack)
  | (e :: es) :: stack =>
      match sel e with
      | some l => some (none, l :: es :: stack)
      | none => some (some e, es :: stack)

lemma mcollect_finished_eq {σ α : Type} (step : σ → Option (Option α × σ))
    (n₁ n₂ : Nat) (s : σ) :
    (mcollect step n₁ s).2.2 = true → (mcollect step n₂ s).2.2 = true →
    (mcollect step n₁ s).1 = (mcollect step n₂ s).1 := by
  intro h1 h2
  rcases Nat.le_total n₁ n₂ with h | h
  · exact (mcollect_stable step n₁ s h1 n₂ h).symm
  · exact mcollect_stable step n₂ s h2 n₁ h

/-- C1: traversals of the sequences returned by `except_by`, `interleave` and
`flatten2` are independent: each traversal is a cursor started from a fresh
initial state (fresh not-yet-built seen-key set, fresh iterator list, fresh
stack — the `Enumerable` wrapper re-invokes the generator factory per
traversal, modelled from the spec), and under any interleaved schedule of two
such cursors each cursor's output is exactly what it would produce alone,
determined only by its own advance count. Full traversals therefore agree:
for `except_by` and `interleave` any sufficiently long run equals the
denotational result, and for `flatten2` any two runs that reach exhaustion
produce the same list. -/
theorem independent_traversals_no_interference {α κ : Type} [DecidableEq κ]
    (ks : α → κ) (src second : List α) (its : List (List α))
    (sel : α → Option (List α)) (srcF : List α)
    (bs : List Bool) (n n₁ n₂ : Nat) :
    ((execSched (excStep ks) bs (.start second src) (.start second src)).1 =
        (mcollect (excStep ks) (countTrue bs) (ExcState.start second src)).1 ∧
      (execSched (excStep ks) bs (.start second src) (.start second src)).2 =
        (mcollect (excStep ks) (countFalse bs) (ExcState.start second src)).1) ∧
    (src.length + 1 ≤ n →
      (mcollect (excStep ks) n (ExcState.start second src)).1 = exceptBy src second ks) ∧
    ((execSched ivStep bs ([], its) ([], its)).1 =
        (mcollect ivStep (countTrue bs) (([] : List (List α)), its)).1 ∧
      (execSched ivStep bs ([], its) ([], its)).2 =
        (mcollect ivStep (countFalse bs) (([] : List (List α)), its)).1) ∧
    (ivFuel (([] : List (List α)), its) ≤ n →
      (mcollect ivStep n (([] : List (List α)), its)).1 = interleaveGo [] its) ∧
    ((execSched (flStep sel) bs [srcF] [srcF]).1 =
        (mcollect (flStep sel) (countTrue bs) [srcF]).1 ∧
      (execSched (flStep sel) bs [srcF] [srcF]).2 =
        (mcollect (flStep sel) (countFalse bs) [srcF]).1) ∧
    ((mcollect (flStep sel) n₁ [srcF]).2.2 = true →
      (mcollect (flStep sel) n₂ [srcF]).2.2 = true →
      (mcollect (flStep sel) n₁ [srcF]).1 = (mcollect (flStep sel) n₂ [srcF]).1) := by
  refine ⟨⟨execSched_fst _ bs _ _, execSched_snd _ bs _ _⟩,
    fun hn => mcollect_excStep_start ks src second n hn,
    ⟨execSched_fst _ bs _ _, execSched_snd _ bs _ _⟩,
    fun hn => mcollect_ivStep_eq n [] its hn,
    ⟨execSched_fst _ bs _ _, execSched_snd _ bs _ _⟩,
    mcollect_finished_eq _ n₁ n₂ _⟩

/-- Witness for C1 at concrete inputs. -/
theorem independent_traversals_witness :
    (mcollect (excStep (fun k : Nat => k)) 9 (ExcState.start [2] [1, 2, 1])).1 =
        exceptBy [1, 2, 1] [2] (fun k : Nat => k) ∧
    (mcollect ivStep 9 (([] : List (List Nat)), [[1, 2], [3]])).1 =
        interleaveGo [] [[1, 2], [3]] ∧
    (mcollect (flStep (fun _ : Nat => (none : Option (List Nat)))) 4 [[5, 6]]).1 =
      (mcollect (flStep (fun _ : Nat => (none : Option (List Nat)))) 6 [[5, 6]]).1 := by
  have h := independent_traversals_no_interference (fun k : Nat => k) [1, 2, 1] [2]
    [[1, 2], [3]] (fun _ : Nat => (none : Option (List Nat))) [5, 6]
    [true, false, true] 9 4 6
  exact ⟨h.2.1 (by decide), h.2.2.2.1 (by decide),
    h.2.2.2.2.2 (by decide) (by decide)⟩

/-- C8: `interleave(*iters)` is round-robin over the receiver followed by the
arguments in order: each round yields the next element of every not-yet
exhausted input in order (an input found exhausted is dropped and the round
moves straight to the next remaining input), rounds repeat until all inputs
are exhausted, every element of every finite input appears exactly once
(permutation of the concatenation, hence equal total length), and the
traversal terminates (`interleaveGo` is total). -/
theorem interleave_round_robin {α : Type} (self : List α) (iters : List (List α)) :
    interleave self iters = interleaveGo [] (self :: iters) ∧
    (∀ its : List (List α), interleaveGo [] its =
        (interleaveRound its).1 ++ interleaveGo [] (interleaveRound its).2) ∧
    (∀ its : List (List α), (interleaveRound its).1 = its.filterMap List.head?) ∧
    (∀ its : List (List α),
        (interleaveRound its).2 = (its.filter (fun l => !l.isEmpty)).map List.tail) ∧
    (interleave self iters).Perm (self :: iters).flatten ∧
    (interleave self iters).length = (self :: iters).flatten.length := by
  have hperm : (interleave self iters).Perm (self :: iters).flatten := by
    have h := interleaveGo_perm (ivFuel (([] : List (List α)), self :: iters))
      [] (self :: iters) (le_refl _)
    simpa using h
  refine ⟨rfl, ?_, interleaveRound_fst, interleaveRound_snd, hperm, hperm.length_eq⟩
  intro its
  rw [interleaveGo_round its []]
  simp only [List.nil_append]
  rw [interleaveGo_done_comm]

/-! ### traverse_depth_first

Python source (`MoreEnumerable.traverse_depth_first`):
```
def inner():
    stack = [root]
    while stack:
        elem = stack.pop()
        yield elem
        children = [*children_selector(elem)]
        for children in reversed(children):
            stack.append(children)
return MoreEnumerable(inner)
```
Appending `reversed(children)` to the Python stack (top at the end) puts the
first child on top, so in the head-top embedding the stack becomes
`children ++ stack`. `traverseDFRun cs n stack` drives the generator with
fuel `n` (the selector is an arbitrary function, so the walk need not
terminate); `none` means the fuel ran out before exhaustion. -/

def traverseDFRun {α : Type} (cs : α → List α) : Nat → List α → Option (List α)
  | _, [] => some []
  | 0, _ :: _ => none
  | n + 1, e :: stack => (traverseDFRun cs n (cs e ++ stack)).map (e :: ·)

/-- Rose trees: the well-founded inputs on which the depth-first walk is run
to compare it with the spec-side recursive preorder. -/
inductive PTree (α : Type) where
  | node : α → List (PTree α) → PTree α

def PTree.children {α : Type} : PTree α → List (PTree α)
  | .node _ ts => ts

def PTree.label {α : Type} : PTree α → α
  | .node a _ => a

mutual

/-- Spec-side preorder: the root first, then the entire subtree of each child
in order, each child's subtree fully before the next sibling. -/
def preorder {α : Type} : PTree α → List (PTree α)
  | .node a ts => .node a ts :: preorderForest ts

def preorderForest {α : Type} : List (PTree α) → List (PTree α)
  | [] => []
  | t :: ts => preorder t ++ preorderForest ts

end

mutual

def psize {α : Type} : PTree α → Nat
  | .node _ ts => 1 + psizeForest ts

def psizeForest {α : Type} : List (PTree α) → Nat
  | [] => 0
  | t :: ts => psize t + psizeForest ts

end

lemma psizeForest_append {α : Type} (ts us : List (PTree α)) :
    psizeForest (ts ++ us) = psizeForest ts + psizeForest us := by
  induction ts with
  | nil => simp [psizeForest]
  | cons t ts ih => simp [psizeForest, ih]; omega

lemma preorderForest_append {α : Type} (ts us : List (PTree α)) :
    preorderForest (ts ++ us) = preorderForest ts ++ preorderForest us := by
  induction ts with
  | nil => simp [preorderForest]
  | cons t ts ih => simp [preorderForest, ih]

lemma traverseDFRun_eq_preorder {α : Type} :
    ∀ (n : Nat) (ts : List (PTree α)), psizeForest ts ≤ n →
      traverseDFRun PTree.children n ts = some (preorderForest ts) := by
  intro n
  induction n with
  | zero =>
      intro ts h
      cases ts with
      | nil => rfl
      | cons t rest =>
          cases t with
          | node a cs => simp [psizeForest, psize] at h
  | succ n ih =>
      intro ts h
      cases ts with
      | nil => rfl
      | cons t rest =>
          cases t with
          | node a cs =>
              rw [traverseDFRun]
              have hsz : psizeForest (PTree.children (.node a cs) ++ rest) ≤ n := by
                rw [psizeForest_append]
                simp only [psizeForest, psize, PTree.children] at h ⊢
                omega
              rw [ih (PTree.children (.node a cs) ++ rest) hsz]
              simp only [Option.map_some']
              rw [preorderForest, preorder, preorderForest_append]
              rfl

/-- C9: `traverse_depth_first(root, children_selector)` run on a (finite) tree
with `children_selector` returning each node's children yields the pre-order
depth-first traversal: the root first, then for each node the entire subtree
of its first child before the next sibling — the effect of pushing each
node's children onto the stack in reversed order (first child on top). -/
theorem traverseDepthFirst_preorder {α : Type} (t : PTree α) (n : Nat)
    (a : α) (ts : List (PTree α)) (u : PTree α) (us : List (PTree α)) :
    (psize t ≤ n → traverseDFRun PTree.children n [t] = some (preorder t)) ∧
    preorder (.node a ts) = .node a ts :: preorderForest ts ∧
    preorderForest (u :: us) = preorder u ++ preorderForest us ∧
    preorderForest ([] : List (PTree α)) = [] := by
  refine ⟨?_, rfl, rfl, rfl⟩
  intro h
  have : psizeForest [t] ≤ n := by simp only [psizeForest]; omega
  rw [traverseDFRun_eq_preorder n [t] this]
  rw [preorderForest, preorderForest, List.append_nil]

/-- Witness for C9 at a concrete tree. -/
theorem traverseDepthFirst_preorder_witness :
    traverseDFRun PTree.children 9
        [PTree.node 1 [PTree.node 2 [PTree.node 4 []], PTree.node 3 []]] =
      some (preorder (PTree.node 1 [PTree.node 2 [PTree.node 4 []], PTree.node 3 []])) :=
  (traverseDepthFirst_preorder
      (PTree.node 1 [PTree.node 2 [PTree.node 4 []], PTree.node 3 []]) 9
      (0 : Nat) [] (PTree.node 0 []) []).1
    (by simp [psize, psizeForest])

/-! ### flatten

Python source (`MoreEnumerable.flatten`):
```
def flatten(self, *args):
    if len(args) == 0:
        return self.flatten(lambda x: not isinstance(x, str))
    else:  # len(args) == 1
        predicate = args[0]
        return self.flatten2(lambda x: x
            if isinstance(x, Iterable) and predicate(x)
            else None)
```
`PyVal` models the dynamically typed elements: integers are not `Iterable`,
strings and lists are (iterating a string yields its one-character strings).
The `and` in the lambda is short-circuit: the predicate is consulted only for
`Iterable` values. -/

inductive PyVal where
  | int : Int → PyVal
  | str : String → PyVal
  | list : List PyVal → PyVal

def isIterable : PyVal → Bool
  | .int _ => false
  | .str _ => true
  | .list _ => true

def isStr : PyVal → Bool
  | .str _ => true
  | _ => false

def pyIterate : PyVal → List PyVal
  | .int _ => []
  | .str s => s.data.map (fun c => .str (String.mk [c]))
  | .list l => l

/-- The selector `flatten(predicate)` passes to `flatten2`:
`x if isinstance(x, Iterable) and predicate(x) else None`. -/
def flattenSelector (pred : PyVal → Bool) (x : PyVal) : Option (List PyVal) :=
  if isIterable x && pred x then some (pyIterate x) else none

/-- The zero-argument `flatten()` is `flatten(lambda x: not isinstance(x, str))`. -/
def flattenDefaultSelector : PyVal → Option (List PyVal) :=
  flattenSelector (fun x => !(isStr x))

mutual

/-- Spec-side recursive flattening for the default predicate: strings and
non-iterable values are kept as-is, every other iterable value is descended
into at every depth. -/
def deepFlatten : PyVal → List PyVal
  | .int k => [.int k]
  | .str s => [.str s]
  | .list l => deepFlattenList l

def deepFlattenList : List PyVal → List PyVal
  | [] => []
  | v :: vs => deepFlatten v ++ deepFlattenList vs

end

mutual

def fcost : PyVal → Nat
  | .int _ => 1
  | .str _ => 1
  | .list l => 2 + fcostList l

def fcostList : List PyVal → Nat
  | [] => 0
  | v :: vs => fcost v + fcostList vs

end

def stacksCost : List (List PyVal) → Nat
  | [] => 0
  | frame :: stack => fcostList frame + 1 + stacksCost stack

def deepFlattenStack : List (List PyVal) → List PyVal
  | [] => []
  | frame :: stack => deepFlattenList frame ++ deepFlattenStack stack

lemma flStep_default_nil (stack : List (List PyVal)) :
    flStep flattenDefaultSelector ([] :: stack) = some (none, stack) := rfl

lemma flStep_default_int (k : Int) (es : List PyVal) (stack : List (List PyVal)) :
    flStep flattenDefaultSelector ((.int k :: es) :: stack) =
      some (some (.int k), es :: stack) := rfl

lemma flStep_default_str (s : String) (es : List PyVal) (stack : List (List PyVal)) :
    flStep flattenDefaultSelector ((.str s :: es) :: stack) =
      some (some (.str s), es :: stack) := rfl

lemma flStep_default_list (l es : List PyVal) (stack : List (List PyVal)) :
    flStep flattenDefaultSelector ((.list l :: es) :: stack) =
      some (none, l :: es :: stack) := rfl

lemma mcollect_flatten_default :
    ∀ (n : Nat) (stack : List (List PyVal)), stacksCost stack + 1 ≤ n →
      mcollect (flStep flattenDefaultSelector) n stack = (deepFlattenStack stack, [], true) := by
  intro n
  induction n with
  | zero => intro stack h; omega
  | succ n ih =>
      intro stack h
      cases stack with
      | nil =>
          rw [mcollect]
          rfl
      | cons frame stack =>
          cases frame with
          | nil =>
              simp only [stacksCost, fcostList] at h
              rw [mcollect, flStep_default_nil]
              simp only [Option.toList, List.nil_append]
              rw [ih stack (by omega)]
              simp [deepFlattenStack, deepFlattenList]
          | cons e es =>
              cases e with
              | int k =>
                  simp only [stacksCost, fcostList, fcost] at h
                  rw [mcollect, flStep_default_int]
                  simp only [Option.toList]
                  rw [ih (es :: stack) (by simp only [stacksCost]; omega)]
                  simp [deepFlattenStack, deepFlattenList, deepFlatten]
              | str s =>
                  simp only [stacksCost, fcostList, fcost] at h
                  rw [mcollect, flStep_default_str]
                  simp only [Option.toList]
                  rw [ih (es :: stack) (by simp only [stacksCost]; omega)]
                  simp [deepFlattenStack, deepFlattenList, deepFlatten]
              | list l =>
                  simp only [stacksCost, fcostList, fcost] at h
                  rw [mcollect, flStep_default_list]
                  simp only [Option.toList, List.nil_append]
                  rw [ih (l :: es :: stack) (by simp only [stacksCost]; omega)]
                  simp [deepFlattenStack, deepFlattenList, deepFlatten]

/-- C10: the zero-argument `flatten()` recursively flattens, at every depth,
exactly those elements that are `Iterable` and not strings: strings and
non-iterable values are yielded as-is, every other iterable value is
descended into rather than yielded. The default selector returns `None` on
strings and non-iterables (yield) and the contents on other iterables
(descend), and a full `flatten2` traversal with it equals the spec-side
recursive flattening. -/
theorem flatten_default_respects_str
    (src : List PyVal) (n : Nat) (s : String) (k : Int) (l : List PyVal) :
    (stacksCost [src] + 1 ≤ n →
      (mcollect (flStep flattenDefaultSelector) n [src]).1 = deepFlattenList src) ∧
    flattenDefaultSelector (.str s) = none ∧
    flattenDefaultSelector (.int k) = none ∧
    flattenDefaultSelector (.list l) = some l ∧
    deepFlatten (.str s) = [.str s] ∧
    deepFlatten (.int k) = [.int k] ∧
    deepFlatten (.list l) = deepFlattenList l := by
  refine ⟨?_, rfl, rfl, rfl, by simp [deepFlatten], by simp [deepFlatten],
    by simp [deepFlatten]⟩
  intro h
  rw [mcollect_flatten_default n [src] h]
  simp [deepFlattenStack]

/-- Witness for C10 at a concrete nested value. -/
theorem flatten_default_respects_str_witness :
    (mcollect (flStep flattenDefaultSelector) 20
        [[PyVal.int 1, PyVal.str "ab", PyVal.list [PyVal.int 2, PyVal.list [PyVal.int 3]],
          PyVal.list []]]).1 =
      deepFlattenList
        [PyVal.int 1, PyVal.str "ab", PyVal.list [PyVal.int 2, PyVal.list [PyVal.int 3]],
          PyVal.list []] :=
  (flatten_default_respects_str
      [PyVal.int 1, PyVal.str "ab", PyVal.list [PyVal.int 2, PyVal.list [PyVal.int 3]],
        PyVal.list []] 20 "" 0 []).1
    (by simp [stacksCost, fcostList, fcost])

/-! ### Fault propagation through traversals

A caller-supplied callback that can raise is an `Except`-valued function.
The runners below return the trace of values produced before any fault,
paired with `some err` when the callback raised `err` (propagated unchanged)
and `none` when the traversal completed. Python sources:
```
def for_each(self, action):
    for elem in self:
        action(elem)

def for_each2(self, action):
    for i, elem in enumerate(self):
        action(elem, i)
```
-/

def okValue {ε β : Type} : Except ε β → Option β
  | .ok b => some b
  | .error _ => none

def forEachRun {α β ε : Type} (action : α → Except ε β) : List α → List β × Option ε
  | [] => ([], none)
  | e :: rest =>
      match action e with
      | .error err => ([], some err)
      | .ok b =>
          let r := forEachRun action rest
          (b :: r.1, r.2)

def forEach2Go {α β ε : Type} (action : α → Nat → Except ε β) :
    List α → Nat → List β × Option ε
  | [], _ => ([], none)
  | e :: rest, i =>
      match action e i with
      | .error err => ([], some err)
      | .ok b =>
          let r := forEach2Go action rest (i + 1)
          (b :: r.1, r.2)

def forEach2Run {α β ε : Type} (action : α → Nat → Except ε β) (src : List α) :
    List β × Option ε :=
  forEach2Go action src 0

/-- The set comprehension of `except_by` keying every element of `second`;
it runs on the first advance and a raise there aborts before anything is
yielded. -/
def keysOfE {α κ ε : Type} (ks : α → Except ε κ) : List α → Except ε (List κ)
  | [] => .ok []
  | e :: rest =>
      match ks e with
      | .error err => .error err
      | .ok k => (keysOfE ks rest).map (fun l => k :: l)

def exceptByRunE {α κ ε : Type} [DecidableEq κ] (ks : α → Except ε κ) :
    List α → List κ → List α × Option ε
  | [], _ => ([], none)
  | e :: rest, seen =>
      match ks e with
      | .error err => ([], some err)
      | .ok k =>
          if k ∈ seen then exceptByRunE ks rest seen
          else
            let r := exceptByRunE ks rest (k :: seen)
            (e :: r.1, r.2)

def exceptByE {α κ ε : Type} [DecidableEq κ] (src second : List α)
    (ks : α → Except ε κ) : List α × Option ε :=
  match keysOfE ks second with
  | .error err => ([], some err)
  | .ok seen => exceptByRunE ks src seen

lemma forEachRun_error {α β ε : Type} (action : α → Except ε β) (x : α) (err : ε)
    (post : List α) :
    ∀ pre : List α, (∀ a ∈ pre, ∃ b, action a = .ok b) → action x = .error err →
      forEachRun action (pre ++ x :: post) =
        (pre.filterMap (fun a => okValue (action a)), some err) := by
  intro pre
  induction pre with
  | nil =>
      intro _ hx
      simp only [List.nil_append, forEachRun, hx, List.filterMap_nil]
  | cons a pre ih =>
      intro hpre hx
      rcases hpre a (List.mem_cons_self _ _) with ⟨b, hb⟩
      simp only [List.cons_append, forEachRun, hb, List.filterMap_cons, okValue,
        List.append_eq]
      rw [ih (fun a ha => hpre a (List.mem_cons_of_mem _ ha)) hx]
      simp [hb, okValue]

lemma forEach2Go_error {α β ε : Type} (action : α → Nat → Except ε β) (x : α) (err : ε)
    (post : List α) :
    ∀ (pre : List α) (i : Nat),
      (∀ p ∈ pre.enumFrom i, ∃ b, action p.2 p.1 = .ok b) →
      action x (i + pre.length) = .error err →
      forEach2Go action (pre ++ x :: post) i =
        ((pre.enumFrom i).filterMap (fun p => okValue (action p.2 p.1)), some err) := by
  intro pre
  induction pre with
  | nil =>
      intro i _ hx
      simp only [List.length_nil, Nat.add_zero] at hx
      simp only [List.nil_append, forEach2Go, hx, List.enumFrom, List.filterMap_nil]
  | cons a pre ih =>
      intro i hpre hx
      have ha : (i, a) ∈ (a :: pre).enumFrom i := by
        simp [List.enumFrom]
      rcases hpre (i, a) ha with ⟨b, hb⟩
      simp only [List.cons_append, forEach2Go, hb, List.enumFrom, List.filterMap_cons,
        List.append_eq]
      rw [ih (i + 1) (fun p hp => hpre p (by simp [List.enumFrom, hp]))
        (by rw [show i + 1 + pre.length = i + (pre.length + 1) by omega]; simpa using hx)]
      simp [hb, okValue]

lemma keysOfE_error {α κ ε : Type} (ks : α → Except ε κ) (x : α) (err : ε)
    (post : List α) :
    ∀ pre : List α, (∀ a ∈ pre, ∃ k, ks a = .ok k) → ks x = .error err →
      keysOfE ks (pre ++ x :: post) = .error err := by
  intro pre
  induction pre with
  | nil => intro _ hx; simp only [List.nil_append, keysOfE, hx]
  | cons a pre ih =>
      intro hpre hx
      rcases hpre a (List.mem_cons_self _ _) with ⟨k, hk⟩
      simp only [List.cons_append, keysOfE, hk, List.append_eq]
      rw [ih (fun a ha => hpre a (List.mem_cons_of_mem _ ha)) hx]
      rfl

lemma keysOfE_ok {α κ ε : Type} (ksE : α → Except ε κ) (ks : α → κ) :
    ∀ l : List α, (∀ a ∈ l, ksE a = .ok (ks a)) →
      keysOfE ksE l = .ok (l.map ks) := by
  intro l
  induction l with
  | nil => intro _; rfl
  | cons a l ih =>
      intro hl
      simp only [keysOfE, hl a (List.mem_cons_self _ _), List.map_cons]
      rw [ih (fun a ha => hl a (List.mem_cons_of_mem _ ha))]
      rfl

lemma exceptByRunE_error {α κ ε : Type} [DecidableEq κ] (ksE : α → Except ε κ)
    (ks : α → κ) (x : α) (err : ε) (post : List α) :
    ∀ (pre : List α) (seen : List κ),
      (∀ a ∈ pre, ksE a = .ok (ks a)) → ksE x = .error err →
      exceptByRunE ksE (pre ++ x :: post) seen = (exceptByRun ks pre seen, some err) := by
  intro pre
  induction pre with
  | nil =>
      intro seen _ hx
      simp only [List.nil_append, exceptByRunE, hx, exceptByRun]
  | cons a pre ih =>
      intro seen hpre hx
      have ha := hpre a (List.mem_cons_self _ _)
      have hrest : ∀ b ∈ pre, ksE b = .ok (ks b) :=
        fun b hb => hpre b (List.mem_cons_of_mem _ hb)
      simp only [List.cons_append, exceptByRunE, ha, exceptByRun, List.append_eq]
      by_cases hmem : ks a ∈ seen
      · rw [if_pos hmem, if_pos hmem]
        exact ih seen hrest hx
      · rw [if_neg hmem, if_neg hmem]
        rw [ih (ks a :: seen) hrest hx]

/-! flatten2 with a fallible selector, as a cursor machine. -/

def mcollectE {σ α ε : Type} (step : σ → Option (Except ε (Option α × σ))) :
    Nat → σ → List α × Option ε
  | 0, _ => ([], none)
  | n + 1, s =>
      match step s with
      | none => ([], none)
      | some (.error err) => ([], some err)
      | some (.ok (a, s')) =>
          let r := mcollectE step n s'
          (a.toList ++ r.1, r.2)

def flStepE {α ε : Type} (sel : α → Except ε (Option (List α))) :
    List (List α) → Option (Except ε (Option α × List (List α)))
  | [] => none
  | [] :: stack => some (.ok (none, stack))
  | (e :: es) :: stack =>
      match sel e with
      | .error err => some (.error err)
      | .ok (some l) => some (.ok (none, l :: es :: stack))
      | .ok none => some (.ok (some e, es :: stack))

lemma mcollectE_flStepE_error {α ε : Type} (sel : α → Except ε (Option (List α)))
    (x : α) (err : ε) (post : List α) :
    ∀ (pre : List α) (n : Nat),
      (∀ a ∈ pre, sel a = .ok none) → sel x = .error err → pre.length + 1 ≤ n →
      mcollectE (flStepE sel) n [pre ++ x :: post] = (pre, some err) := by
  intro pre
  induction pre with
  | nil =>
      intro n _ hx hn
      cases n with
      | zero => omega
      | succ n =>
          simp only [List.nil_append, mcollectE, flStepE, hx]
  | cons a pre ih =>
      intro n hpre hx hn
      cases n with
      | zero => simp at hn
      | succ n =>
          have ha := hpre a (List.mem_cons_self _ _)
          simp only [List.cons_append, mcollectE, flStepE, ha, Option.toList,
            List.append_eq]
          rw [ih n (fun b hb => hpre b (List.mem_cons_of_mem _ hb)) hx
            (by simp only [List.length_cons] at hn; omega)]
          simp

lemma okValue_isSome {ε β : Type} (e : Except ε β) :
    (okValue e).isSome = true ↔ ∃ b, e = .ok b := by
  cases e with
  | error err => simp [okValue]
  | ok b => simp [okValue]

/-- C6: a fault raised by a caller-supplied function (the key selector inside
`except_by` — whether while keying `second` or a source element —, the action
inside `for_each` or `for_each2`, the selector inside `flatten2`) propagates
out of the traversal unmodified (the very same error value, not wrapped or
suppressed) at the point where the affected element is processed, and every
element processed before the failing one has already been produced or acted
upon normally. -/
theorem user_callback_fault_propagation {α β κ ε : Type} [DecidableEq κ]
    (action : α → Except ε β) (action2 : α → Nat → Except ε β)
    (ksE : α → Except ε κ) (ks : α → κ) (sel : α → Except ε (Option (List α)))
    (pre post other : List α) (x : α) (err : ε) (n : Nat) :
    ((∀ a ∈ pre, (okValue (action a)).isSome = true) → action x = .error err →
      forEachRun action (pre ++ x :: post) =
        (pre.filterMap (fun a => okValue (action a)), some err)) ∧
    ((∀ p ∈ pre.enumFrom 0, (okValue (action2 p.2 p.1)).isSome = true) →
      action2 x pre.length = .error err →
      forEach2Run action2 (pre ++ x :: post) =
        ((pre.enumFrom 0).filterMap (fun p => okValue (action2 p.2 p.1)), some err)) ∧
    ((∀ a ∈ pre, (okValue (ksE a)).isSome = true) → ksE x = .error err →
      exceptByE other (pre ++ x :: post) ksE = ([], some err)) ∧
    ((∀ a ∈ other, ksE a = .ok (ks a)) → (∀ a ∈ pre, ksE a = .ok (ks a)) →
      ksE x = .error err →
      exceptByE (pre ++ x :: post) other ksE = (exceptBy pre other ks, some err)) ∧
    ((∀ a ∈ pre, sel a = .ok none) → sel x = .error err → pre.length + 1 ≤ n →
      mcollectE (flStepE sel) n [pre ++ x :: post] = (pre, some err)) := by
  refine ⟨?_, ?_, ?_, ?_, ?_⟩
  · intro hpre hx
    exact forEachRun_error action x err post pre
      (fun a ha => (okValue_isSome (action a)).mp (hpre a ha)) hx
  · intro hpre hx
    exact forEach2Go_error action2 x err post pre 0
      (fun p hp => (okValue_isSome (action2 p.2 p.1)).mp (hpre p hp)) (by simpa using hx)
  · intro hpre hx
    rw [exceptByE, keysOfE_error ksE x err post pre
      (fun a ha => (okValue_isSome (ksE a)).mp (hpre a ha)) hx]
  · intro hother hpre hx
    rw [exceptByE, keysOfE_ok ksE ks other hother]
    exact exceptByRunE_error ksE ks x err post pre (other.map ks) hpre hx
  · intro hpre hx hn
    exact mcollectE_flStepE_error sel x err post pre n hpre hx hn

/-- Witness for C6 at concrete inputs: the callbacks fail at element `3` (or
index `2`) with error `99`, after a cleanly processed prefix. -/
theorem user_callback_fault_propagation_witness :
    forEachRun (fun a : Nat => if a = 3 then (Except.error 99 : Except Nat Nat)
        else .ok (a * 2)) [1, 2, 3, 4] = ([2, 4], some 99) ∧
    forEach2Run (fun (a i : Nat) => if i = 2 then (Except.error 99 : Except Nat Nat)
        else .ok (a + i)) [1, 2, 3, 4] = ([1, 3], some 99) ∧
    exceptByE [1, 4] [1, 2, 3, 4]
        (fun a : Nat => if a = 3 then (Except.error 99 : Except Nat Nat) else .ok (a % 3)) =
      ([], some 99) ∧
    exceptByE [1, 2, 3, 4] [1, 4]
        (fun a : Nat => if a = 3 then (Except.error 99 : Except Nat Nat) else .ok (a % 3)) =
      ([2], some 99) ∧
    mcollectE (flStepE (fun a : Nat => if a = 3 then
        (Except.error 99 : Except Nat (Option (List Nat))) else .ok none)) 5
      [[1, 2, 3, 4]] = ([1, 2], some 99) := by
  have h := user_callback_fault_propagation
    (fun a : Nat => if a = 3 then (Except.error 99 : Except Nat Nat) else .ok (a * 2))
    (fun (a i : Nat) => if i = 2 then (Except.error 99 : Except Nat Nat) else .ok (a + i))
    (fun a : Nat => if a = 3 then (Except.error 99 : Except Nat Nat) else .ok (a % 3))
    (fun a : Nat => a % 3)
    (fun a : Nat => if a = 3 then (Except.error 99 : Except Nat (Option (List Nat)))
      else .ok none)
    [1, 2] [4] [1, 4] 3 99 5
  refine ⟨(h.1 (by decide) rfl).trans (by decide),
    (h.2.1 (by decide) rfl).trans (by decide),
    (h.2.2.1 (by decide) rfl).trans (by decide),
    (h.2.2.2.1 (by intro a ha; fin_cases ha <;> rfl)
      (by intro a ha; fin_cases ha <;> rfl) rfl).trans (by decide),
    (h.2.2.2.2 (by intro a ha; fin_cases ha <;> rfl) rfl (by decide)).trans (by decide)⟩

/-! ### Deferred execution: construction versus cursor advances

Calling a chaining operator only creates a generator description (the
parameter package / initial machine state); no source element is pulled and
no user callback runs until a cursor over the returned sequence is advanced.
The machines below make the callback calls observable through `Except`:
an always-raising ("bomb") callback leaves a zero-advance traversal clean,
and the first advance that needs the callback is exactly where the raise
appears. For `traverse_depth_first` / `traverse_breath_first` the Python
generator yields the popped element *before* asking for its children, so the
state splits into `pick` (about to pop and yield) and `expand` (resumed
after the yield, about to call the selector). -/

def excStepE {α κ ε : Type} [DecidableEq κ] (ks : α → Except ε κ) :
    ExcState α κ → Option (Except ε (Option α × ExcState α κ))
  | .start second rest =>
      some (match keysOfE ks second with
        | .error err => .error err
        | .ok seen => .ok (none, .going seen rest))
  | .going _ [] => none
  | .going seen (e :: rest) =>
      some (match ks e with
        | .error err => .error err
        | .ok k =>
            if k ∈ seen then .ok (none, ExcState.going seen rest)
            else .ok (some e, ExcState.going (k :: seen) rest))

inductive DFState (α : Type) where
  | pick (stack : List α)
  | expand (elem : α) (stack : List α)

def dfStepE {α ε : Type} (cs : α → Except ε (List α)) :
    DFState α → Option (Except ε (Option α × DFState α))
  | .pick [] => none
  | .pick (e :: stack) => some (.ok (some e, .expand e stack))
  | .expand e stack =>
      some (match cs e with
        | .error err => .error err
        | .ok children => .ok (none, .pick (children ++ stack)))

inductive BFState (α : Type) where
  | pick (queue : List α)
  | expand (elem : α) (queue : List α)

def bfStepE {α ε : Type} (cs : α → Except ε (List α)) :
    BFState α → Option (Except ε (Option α × BFState α))
  | .pick [] => none
  | .pick (e :: queue) => some (.ok (some e, .expand e queue))
  | .expand e queue =>
      some (match cs e with
        | .error err => .error err
        | .ok children => .ok (none, .pick (queue ++ children)))

/-- `flatten(predicate)`'s selector with a fallible predicate: the Python
`isinstance(x, Iterable) and predicate(x)` short-circuits, so the predicate
runs only on iterable values. -/
def flattenSelectorE {ε : Type} (pred : PyVal → Except ε Bool) (x : PyVal) :
    Except ε (Option (List PyVal)) :=
  if isIterable x then (pred x).map (fun b => if b then some (pyIterate x) else none)
  else .ok none

lemma mcollectE_flStepE_nil {α ε : Type} (sel : α → Except ε (Option (List α))) :
    ∀ n : Nat, mcollectE (flStepE sel) n ([] : List (List α)) = ([], none) := by
  intro n
  cases n with
  | zero => rfl
  | succ n => rfl

lemma mcollectE_flStepE_empty_source {α ε : Type} (sel : α → Except ε (Option (List α))) :
    ∀ n : Nat, mcollectE (flStepE sel) n [([] : List α)] = ([], none) := by
  intro n
  cases n with
  | zero => rfl
  | succ n =>
      rw [mcollectE]
      show ((none : Option α).toList ++ (mcollectE (flStepE sel) n ([] : List (List α))).1,
        (mcollectE (flStepE sel) n ([] : List (List α))).2) = ([], none)
      rw [mcollectE_flStepE_nil sel n]
      rfl

/-- C7: chaining operators defer all work to cursor advances. With an
always-raising callback, a constructed-but-unadvanced traversal yields
nothing and raises nothing (the initial state is a pure parameter package);
the raise appears exactly at the first advance that needs the callback:
immediately for `except_by` (keying `second`, or the first source element
when `second` is empty — `distinct_by` is this case) and `flatten2`/`flatten`;
only on the second advance for `traverse_depth_first` and
`traverse_breath_first`, whose first advance yields the root without
consulting the children selector; `flatten2` over an empty source never
calls the selector at all, and `flatten`'s predicate is never consulted for
non-iterable values; `interleave` (no callback) likewise produces nothing
before its first advance. -/
theorem chaining_defers_callbacks {α κ ε : Type} [DecidableEq κ] (err : ε)
    (y e root : α) (s2 src rest : List α) (its : List (List α))
    (k : Int) (l : List PyVal) (s : String) :
    mcollectE (excStepE (fun _ : α => (.error err : Except ε κ))) 0
        (.start s2 src) = ([], none) ∧
    mcollectE (excStepE (fun _ : α => (.error err : Except ε κ))) 1
        (.start (y :: s2) src) = ([], some err) ∧
    mcollectE (excStepE (fun _ : α => (.error err : Except ε κ))) 2
        (.start [] (e :: rest)) = ([], some err) ∧
    mcollectE (flStepE (fun _ : α => (.error err : Except ε (Option (List α))))) 0
        [src] = ([], none) ∧
    mcollectE (flStepE (fun _ : α => (.error err : Except ε (Option (List α))))) 1
        [e :: rest] = ([], some err) ∧
    (∀ (sel : α → Except ε (Option (List α))) (n : Nat),
        mcollectE (flStepE sel) n [([] : List α)] = ([], none)) ∧
    flattenSelectorE (fun _ : PyVal => (.error err : Except ε Bool)) (.int k) = .ok none ∧
    flattenSelectorE (fun _ : PyVal => (.error err : Except ε Bool)) (.list l) = .error err ∧
    flattenSelectorE (fun _ : PyVal => (.error err : Except ε Bool)) (.str s) = .error err ∧
    mcollectE (dfStepE (fun _ : α => (.error err : Except ε (List α)))) 0
        (.pick [root]) = ([], none) ∧
    mcollectE (dfStepE (fun _ : α => (.error err : Except ε (List α)))) 1
        (.pick [root]) = ([root], none) ∧
    mcollectE (dfStepE (fun _ : α => (.error err : Except ε (List α)))) 2
        (.pick [root]) = ([root], some err) ∧
    mcollectE (bfStepE (fun _ : α => (.error err : Except ε (List α)))) 1
        (.pick [root]) = ([root], none) ∧
    mcollectE (bfStepE (fun _ : α => (.error err : Except ε (List α)))) 2
        (.pick [root]) = ([root], some err) ∧
    mcollect ivStep 0 (([] : List (List α)), its) = ([], ([], its), false) := by
  refine ⟨rfl, rfl, rfl, rfl, rfl, mcollectE_flStepE_empty_source, rfl, rfl, rfl,
    rfl, rfl, rfl, rfl, rfl, rfl⟩

/-! ### CachedSequence (spec-modelled)

Modelled from the spec: `cached_enumerable.py` is not among the sources under
review (only its documentation declaration of `CachedEnumerable.as_cached`
is), so the CachedSequence of spec section 4.2 is modelled from the spec's
words: a shared append-only buffer holding the prefix of the source pulled
so far, the not-yet-pulled remainder of the underlying source, and a pull
counter (the spec's side-effect counter that the source bumps each time an
element is produced). Cursors hold only a position into the shared buffer. -/

structure CacheState (α : Type) where
  buffer : List α
  pending : List α
  pulls : Nat
deriving DecidableEq

/-- Modelled from the spec: `as_cached` wraps a source with an empty buffer,
before any element has been pulled. -/
def asCached {α : Type} (src : List α) : CacheState α := ⟨[], src, 0⟩

/-- Modelled from the spec: advancing a cursor at position `i`: if
`i < len(buffer)` return the buffered element (no pull); otherwise pull
exactly one element from the underlying sequence, append it to the buffer
and return it; when the source is exhausted, report exhaustion without
pulling. -/
def cacheAdvance {α : Type} (st : CacheState α) (i : Nat) : Option α × CacheState α :=
  if h : i < st.buffer.length then (some st.buffer[i], st)
  else
    match st.pending with
    | [] => (none, st)
    | e :: rest => (some e, ⟨st.buffer ++ [e], rest, st.pulls + 1⟩)

structure CacheCursor (α : Type) where
  pos : Nat
  seen : List α
deriving DecidableEq

structure CacheSystem (α : Type) where
  cache : CacheState α
  cursors : List (CacheCursor α)
deriving DecidableEq

def csInit {α : Type} (src : List α) (n : Nat) : CacheSystem α :=
  ⟨asCached src, List.replicate n ⟨0, []⟩⟩

/-- One scheduling step: cursor `j` (if it exists) advances once at its own
position against the shared cache; an exhausted cursor is left in place. -/
def csStep {α : Type} (sys : CacheSystem α) (j : Nat) : CacheSystem α :=
  match sys.cursors[j]? with
  | none => sys
  | some c =>
      match cacheAdvance sys.cache c.pos with
      | (none, cache) => ⟨cache, sys.cursors⟩
      | (some a, cache) => ⟨cache, sys.cursors.set j ⟨c.pos + 1, c.seen ++ [a]⟩⟩

def csRun {α : Type} (sys : CacheSystem α) (sched : List Nat) : CacheSystem α :=
  sched.foldl csStep sys

def csInv {α : Type} (src : List α) (sys : CacheSystem α) : Prop :=
  sys.cache.buffer = src.take sys.cache.pulls ∧
  sys.cache.pending = src.drop sys.cache.pulls ∧
  sys.cache.pulls ≤ src.length ∧
  ∀ c ∈ sys.cursors, c.pos ≤ sys.cache.pulls ∧ c.seen = src.take c.pos

lemma csInv_init {α : Type} (src : List α) (n : Nat) : csInv src (csInit src n) := by
  refine ⟨rfl, rfl, by simp [csInit, asCached], ?_⟩
  intro c hc
  have := List.eq_of_mem_replicate hc
  subst this
  exact ⟨Nat.zero_le _, rfl⟩

lemma csInv_step {α : Type} (src : List α) (sys : CacheSystem α) (j : Nat)
    (h : csInv src sys) : csInv src (csStep sys j) := by
  obtain ⟨⟨buf, pend, k⟩, curs⟩ := sys
  obtain ⟨hbuf0, hpend0, hle0, hcur0⟩ := h
  have hbuf : buf = src.take k := hbuf0
  have hpend : pend = src.drop k := hpend0
  have hle : k ≤ src.length := hle0
  have hcur : ∀ c ∈ curs, c.pos ≤ k ∧ c.seen = src.take c.pos := hcur0
  subst hbuf
  subst hpend
  cases hj : curs[j]? with
  | none =>
      simp only [csStep, hj]
      exact ⟨rfl, rfl, hle, hcur⟩
  | some c =>
      have hmem : c ∈ curs := List.getElem?_mem hj
      obtain ⟨hpos, hseen⟩ := hcur c hmem
      have hblen : (src.take k).length = k := by rw [List.length_take]; omega
      by_cases hlt : c.pos < (src.take k).length
      · have hposlen : c.pos < src.length := by omega
        have hadv : cacheAdvance ⟨src.take k, src.drop k, k⟩ c.pos =
            (some (src[c.pos]), ⟨src.take k, src.drop k, k⟩) := by
          simp only [cacheAdvance]
          rw [dif_pos hlt, List.getElem_take src]
        simp only [csStep, hj, hadv]
        refine ⟨rfl, rfl, hle, ?_⟩
        intro c' hc'
        rcases List.mem_or_eq_of_mem_set hc' with hc' | hc'
        · exact hcur c' hc'
        · subst hc'
          refine ⟨?_, ?_⟩
          · show c.pos + 1 ≤ k
            omega
          · show c.seen ++ [src[c.pos]] = src.take (c.pos + 1)
            rw [hseen, List.take_succ, List.getElem?_eq_getElem hposlen]
            rfl
      · have hposeq : c.pos = k := by omega
        cases hpending : src.drop k with
        | nil =>
            have hadv : cacheAdvance ⟨src.take k, [], k⟩ c.pos =
                (none, ⟨src.take k, [], k⟩) := by
              simp only [cacheAdvance]
              rw [dif_neg hlt]
            simp only [csStep, hj, hadv]
            exact ⟨rfl, hpending.symm, hle, hcur⟩
        | cons e rest =>
            have hklen : k < src.length := by
              by_contra hk
              have hnil : src.drop k = [] := List.drop_eq_nil_iff.mpr (by omega)
              rw [hpending] at hnil
              exact List.cons_ne_nil e rest hnil
            have h2 : e :: rest = src[k] :: src.drop (k + 1) := by
              rw [← hpending, List.drop_eq_getElem_cons hklen]
            injection h2 with he hrest
            have hadv : cacheAdvance ⟨src.take k, e :: rest, k⟩ c.pos =
                (some e, ⟨src.take k ++ [e], rest, k + 1⟩) := by
              simp only [cacheAdvance]
              rw [dif_neg hlt]
            simp only [csStep, hj, hadv]
            have hbuf2 : src.take k ++ [e] = src.take (k + 1) := by
              rw [List.take_succ, List.getElem?_eq_getElem hklen, he]
              rfl
            refine ⟨hbuf2, hrest, show k + 1 ≤ src.length by omega, ?_⟩
            intro c' hc'
            rcases List.mem_or_eq_of_mem_set hc' with hc' | hc'
            · obtain ⟨h1, h2'⟩ := hcur c' hc'
              refine ⟨?_, h2'⟩
              show c'.pos ≤ k + 1
              omega
            · subst hc'
              refine ⟨?_, ?_⟩
              · show c.pos + 1 ≤ k + 1
                omega
              · show c.seen ++ [e] = src.take (c.pos + 1)
                rw [hseen, hposeq, List.take_succ, List.getElem?_eq_getElem hklen, he]
                rfl

lemma csInv_run {α : Type} (src : List α) :
    ∀ (sched : List Nat) (sys : CacheSystem α), csInv src sys →
      csInv src (csRun sys sched) := by
  intro sched
  induction sched with
  | nil => intro sys h; exact h
  | cons j sched ih =>
      intro sys h
      exact ih (csStep sys j) (csInv_step src sys j h)

/-- C2: wrapping a source of length `M` via `as_cached` and driving any
number of independent cursors in any interleaved schedule pulls the
underlying source at most `M` times in total; every cursor only ever
observes the prefix of the source matching its position (same `M` elements,
same order, produced at most once each); a cursor that completed a full
traversal has observed exactly the source, and its completion forces the
total pull count to be exactly `M` — `N` full traversals still pull only `M`
times. -/
theorem cached_traversals_pull_source_once {α : Type} (src : List α) (n : Nat)
    (sched : List Nat) :
    (csRun (csInit src n) sched).cache.pulls ≤ src.length ∧
    (∀ c ∈ (csRun (csInit src n) sched).cursors,
        c.seen = src.take c.pos ∧ c.pos ≤ (csRun (csInit src n) sched).cache.pulls) ∧
    (∀ c ∈ (csRun (csInit src n) sched).cursors, c.pos = src.length →
        c.seen = src ∧ (csRun (csInit src n) sched).cache.pulls = src.length) := by
  obtain ⟨hbuf, hpend, hle, hcur⟩ := csInv_run src sched (csInit src n) (csInv_init src n)
  refine ⟨hle, ?_, ?_⟩
  · intro c hc
    obtain ⟨h1, h2⟩ := hcur c hc
    exact ⟨h2, h1⟩
  · intro c hc hpos
    obtain ⟨h1, h2⟩ := hcur c hc
    constructor
    · rw [h2, hpos, List.take_length]
    · omega

/-- Witness for C2: three interleaved full traversals of `[10, 20, 30]` pull
the source exactly three times, and all three cursors observe the source. -/
theorem cached_traversals_pull_source_once_witness :
    (csRun (csInit [10, 20, 30] 3) [0, 1, 2, 0, 1, 2, 0, 1, 2]).cache.pulls = 3 ∧
    ∀ c ∈ (csRun (csInit [10, 20, 30] 3) [0, 1, 2, 0, 1, 2, 0, 1, 2]).cursors,
      c.seen = [10, 20, 30] := by
  have h := cached_traversals_pull_source_once [10, 20, 30] 3 [0, 1, 2, 0, 1, 2, 0, 1, 2]
  refine ⟨(h.2.2 ⟨3, [10, 20, 30]⟩ (by decide) rfl).2, ?_⟩
  decide

/-! ### OrderedSequence (spec-modelled)

Modelled from the spec: `ordered_enumerable.pyi` is not among the sources
under review (only its documentation declaration of
`order_by`/`then_by`/`then_by_descending` is), so the OrderedSequence of
spec section 4.4 is modelled from the spec's words: an ordered list of
(key, direction) criteria, most significant first, appended to by `then_by`;
materialization sorts the source with a stable algorithm driven by the
composite comparator that evaluates the criteria in declared order and
returns the first non-zero result; a descending criterion negates (swaps)
the ascending comparison. Keys are modelled as `Int`-valued with the natural
comparison. -/

def intCmp (a b : Int) : Ordering :=
  if a < b then .lt else if b < a then .gt else .eq

structure SortSpec (α : Type) where
  key : α → Int
  descending : Bool

def specCmp {α : Type} (s : SortSpec α) (a b : α) : Ordering :=
  cond s.descending (intCmp (s.key a) (s.key b)).swap (intCmp (s.key a) (s.key b))

def compositeCmp {α : Type} : List (SortSpec α) → α → α → Ordering
  | [], _, _ => .eq
  | s :: rest, a, b =>
      match specCmp s a b with
      | .eq => compositeCmp rest a b
      | o => o

structure OrderedSeq (α : Type) where
  source : List α
  specs : List (SortSpec α)

def orderBy {α : Type} (src : List α) (key : α → Int) : OrderedSeq α :=
  ⟨src, [⟨key, false⟩]⟩

def orderByDescending {α : Type} (src : List α) (key : α → Int) : OrderedSeq α :=
  ⟨src, [⟨key, true⟩]⟩

def thenBy {α : Type} (o : OrderedSeq α) (key : α → Int) : OrderedSeq α :=
  ⟨o.source, o.specs ++ [⟨key, false⟩]⟩

def thenByDescending {α : Type} (o : OrderedSeq α) (key : α → Int) : OrderedSeq α :=
  ⟨o.source, o.specs ++ [⟨key, true⟩]⟩

/-- Stable insertion: the new element passes over strictly smaller heads and
lands before the first element it does not compare greater than, hence after
every earlier-inserted equal element that came earlier in the source. -/
def stableInsert {α : Type} (cmp : α → α → Ordering) (a : α) : List α → List α
  | [] => [a]
  | b :: bs => if cmp a b = .gt then b :: stableInsert cmp a bs else a :: b :: bs

def sortByCmp {α : Type} (cmp : α → α → Ordering) : List α → List α
  | [] => []
  | a :: as => stableInsert cmp a (sortByCmp cmp as)

def materializeOrd {α : Type} (o : OrderedSeq α) : List α :=
  sortByCmp (compositeCmp o.specs) o.source

lemma intCmp_swap (a b : Int) : intCmp a b = (intCmp b a).swap := by
  rw [intCmp, intCmp]
  rcases lt_trichotomy a b with h | h | h
  · rw [if_pos h, if_neg (by omega), if_pos h]
    rfl
  · rw [if_neg (by omega), if_neg (by omega), if_neg (by omega), if_neg (by omega)]
    rfl
  · rw [if_neg (by omega), if_pos h, if_pos h]
    rfl

lemma intCmp_eq_iff (a b : Int) : intCmp a b = .eq ↔ a = b := by
  rw [intCmp]
  rcases lt_trichotomy a b with h | h | h
  · rw [if_pos h]
    constructor
    · intro hc; exact absurd hc (by simp)
    · intro hc; omega
  · rw [if_neg (by omega), if_neg (by omega)]
    simp [h]
  · rw [if_neg (by omega), if_pos h]
    constructor
    · intro hc; exact absurd hc (by simp)
    · intro hc; omega

lemma intCmp_lt_iff (a b : Int) : intCmp a b = .lt ↔ a < b := by
  rw [intCmp]
  rcases lt_trichotomy a b with h | h | h
  · rw [if_pos h]; simp [h]
  · rw [if_neg (by omega), if_neg (by omega)]
    constructor
    · intro hc; exact absurd hc (by simp)
    · intro hc; omega
  · rw [if_neg (by omega), if_pos h]
    constructor
    · intro hc; exact absurd hc (by simp)
    · intro hc; omega

lemma specCmp_swap {α : Type} (s : SortSpec α) (a b : α) :
    specCmp s a b = (specCmp s b a).swap := by
  obtain ⟨f, d⟩ := s
  cases d
  · exact intCmp_swap _ _
  · show (intCmp (f a) (f b)).swap = ((intCmp (f b) (f a)).swap).swap
    rw [intCmp_swap (f a) (f b)]

lemma specCmp_eq_iff {α : Type} (s : SortSpec α) (a b : α) :
    specCmp s a b = .eq ↔ s.key a = s.key b := by
  obtain ⟨f, d⟩ := s
  cases d
  · exact intCmp_eq_iff _ _
  · show (intCmp (f a) (f b)).swap = .eq ↔ f a = f b
    rw [show ((intCmp (f a) (f b)).swap = .eq) ↔ (intCmp (f a) (f b) = .eq) from by
      cases intCmp (f a) (f b) <;> simp [Ordering.swap]]
    exact intCmp_eq_iff _ _

lemma specCmp_lt_iff {α : Type} (s : SortSpec α) (a b : α) :
    specCmp s a b = .lt ↔
      cond s.descending (s.key b < s.key a) (s.key a < s.key b) := by
  obtain ⟨f, d⟩ := s
  cases d
  · exact intCmp_lt_iff _ _
  · show (intCmp (f a) (f b)).swap = .lt ↔ f b < f a
    rw [show ((intCmp (f a) (f b)).swap = .lt) ↔ (intCmp (f a) (f b) = .gt) from by
      cases intCmp (f a) (f b) <;> simp [Ordering.swap]]
    rw [intCmp_swap (f a) (f b)]
    rw [show ((intCmp (f b) (f a)).swap = .gt) ↔ (intCmp (f b) (f a) = .lt) from by
      cases intCmp (f b) (f a) <;> simp [Ordering.swap]]
    exact intCmp_lt_iff _ _

lemma specCmp_congr_left {α : Type} (s : SortSpec α) (a b c : α)
    (h : s.key a = s.key b) : specCmp s a c = specCmp s b c := by
  rw [specCmp, specCmp, h]

lemma specCmp_congr_right {α : Type} (s : SortSpec α) (a b c : α)
    (h : s.key b = s.key c) : specCmp s a b = specCmp s a c := by
  rw [specCmp, specCmp, h]

lemma specCmp_lt_trans {α : Type} (s : SortSpec α) (a b c : α)
    (h1 : specCmp s a b = .lt) (h2 : specCmp s b c = .lt) : specCmp s a c = .lt := by
  rw [specCmp_lt_iff] at h1 h2 ⊢
  obtain ⟨f, d⟩ := s
  cases d
  · simp only [Bool.cond_false] at h1 h2 ⊢
    omega
  · simp only [Bool.cond_true] at h1 h2 ⊢
    omega

lemma compositeCmp_swap {α : Type} :
    ∀ (specs : List (SortSpec α)) (a b : α),
      compositeCmp specs a b = (compositeCmp specs b a).swap := by
  intro specs
  induction specs with
  | nil => intro a b; rfl
  | cons s rest ih =>
      intro a b
      rw [compositeCmp, compositeCmp]
      cases hs : specCmp s a b with
      | eq =>
          have h2 : specCmp s b a = .eq := by rw [specCmp_swap s b a, hs]; rfl
          simp only [h2]
          exact ih a b
      | lt =>
          have h2 : specCmp s b a = .gt := by rw [specCmp_swap s b a, hs]; rfl
          simp only [h2]
          rfl
      | gt =>
          have h2 : specCmp s b a = .lt := by rw [specCmp_swap s b a, hs]; rfl
          simp only [h2]
          rfl

lemma compositeCmp_eq_iff {α : Type} :
    ∀ (specs : List (SortSpec α)) (a b : α),
      compositeCmp specs a b = .eq ↔ ∀ s ∈ specs, s.key a = s.key b := by
  intro specs
  induction specs with
  | nil => intro a b; simp [compositeCmp]
  | cons s rest ih =>
      intro a b
      rw [compositeCmp]
      cases hs : specCmp s a b with
      | eq =>
          constructor
          · intro h t ht
            rcases List.mem_cons.mp ht with ht | ht
            · subst ht; exact (specCmp_eq_iff t a b).mp hs
            · exact (ih a b).mp h t ht
          · intro h
            show compositeCmp rest a b = .eq
            exact (ih a b).mpr (fun t ht => h t (List.mem_cons_of_mem _ ht))
      | lt =>
          constructor
          · intro h; exact absurd h (by simp)
          · intro h
            have h2 := (specCmp_eq_iff s a b).mpr (h s (List.mem_cons_self _ _))
            rw [hs] at h2
            exact absurd h2 (by simp)
      | gt =>
          constructor
          · intro h; exact absurd h (by simp)
          · intro h
            have h2 := (specCmp_eq_iff s a b).mpr (h s (List.mem_cons_self _ _))
            rw [hs] at h2
            exact absurd h2 (by simp)

lemma compositeCmp_congr_left {α : Type} :
    ∀ (specs : List (SortSpec α)) (a b c : α), (∀ s ∈ specs, s.key a = s.key b) →
      compositeCmp specs a c = compositeCmp specs b c := by
  intro specs
  induction specs with
  | nil => intro a b c _; rfl
  | cons s rest ih =>
      intro a b c h
      rw [compositeCmp, compositeCmp]
      rw [specCmp_congr_left s a b c (h s (List.mem_cons_self _ _))]
      cases specCmp s b c with
      | eq => exact ih a b c (fun t ht => h t (List.mem_cons_of_mem _ ht))
      | lt => rfl
      | gt => rfl

lemma compositeCmp_congr_right {α : Type} :
    ∀ (specs : List (SortSpec α)) (a b c : α), (∀ s ∈ specs, s.key b = s.key c) →
      compositeCmp specs a b = compositeCmp specs a c := by
  intro specs
  induction specs with
  | nil => intro a b c _; rfl
  | cons s rest ih =>
      intro a b c h
      rw [compositeCmp, compositeCmp]
      rw [specCmp_congr_right s a b c (h s (List.mem_cons_self _ _))]
      cases specCmp s a c with
      | eq => exact ih a b c (fun t ht => h t (List.mem_cons_of_mem _ ht))
      | lt => rfl
      | gt => rfl

lemma compositeCmp_lt_trans {α : Type} :
    ∀ (specs : List (SortSpec α)) (a b c : α),
      compositeCmp specs a b = .lt → compositeCmp specs b c = .lt →
      compositeCmp specs a c = .lt := by
  intro specs
  induction specs with
  | nil => intro a b c h; simp [compositeCmp] at h
  | cons s rest ih =>
      intro a b c h1 h2
      rw [compositeCmp] at h1 h2 ⊢
      cases hab : specCmp s a b with
      | gt => rw [hab] at h1; exact absurd h1 (by simp)
      | lt =>
          cases hbc : specCmp s b c with
          | gt => rw [hbc] at h2; exact absurd h2 (by simp)
          | lt => rw [specCmp_lt_trans s a b c hab hbc]
          | eq =>
              have hac : specCmp s a c = .lt :=
                (specCmp_congr_right s a b c ((specCmp_eq_iff s b c).mp hbc)).symm.trans hab
              rw [hac]
      | eq =>
          rw [hab] at h1
          have h1' : compositeCmp rest a b = .lt := h1
          cases hbc : specCmp s b c with
          | gt => rw [hbc] at h2; exact absurd h2 (by simp)
          | lt =>
              have hac : specCmp s a c = .lt :=
                (specCmp_congr_left s a b c ((specCmp_eq_iff s a b).mp hab)).trans hbc
              rw [hac]
          | eq =>
              rw [hbc] at h2
              have h2' : compositeCmp rest b c = .lt := h2
              have hac : specCmp s a c = .eq := by
                rw [specCmp_eq_iff]
                rw [(specCmp_eq_iff s a b).mp hab, (specCmp_eq_iff s b c).mp hbc]
              rw [hac]
              exact ih a b c h1' h2'

lemma compositeCmp_notGt_trans {α : Type} (specs : List (SortSpec α)) (a b c : α)
    (h1 : compositeCmp specs a b ≠ .gt) (h2 : compositeCmp specs b c ≠ .gt) :
    compositeCmp specs a c ≠ .gt := by
  have hcase : ∀ x y : α, compositeCmp specs x y ≠ .gt →
      compositeCmp specs x y = .lt ∨ compositeCmp specs x y = .eq := by
    intro x y h
    cases hv : compositeCmp specs x y with
    | lt => exact Or.inl rfl
    | eq => exact Or.inr rfl
    | gt => exact absurd hv h
  rcases hcase a b h1 with hab | hab <;> rcases hcase b c h2 with hbc | hbc
  · rw [compositeCmp_lt_trans specs a b c hab hbc]
    simp
  · rw [compositeCmp_congr_right specs a b c ((compositeCmp_eq_iff specs b c).mp hbc)] at hab
    rw [hab]
    simp
  · rw [compositeCmp_congr_left specs a b c ((compositeCmp_eq_iff specs a b).mp hab)]
    rw [hbc]
    simp
  · rw [compositeCmp_congr_left specs a b c ((compositeCmp_eq_iff specs a b).mp hab)]
    rw [hbc]
    simp

lemma compositeCmp_eq_trans {α : Type} (specs : List (SortSpec α)) (a b c : α)
    (h1 : compositeCmp specs a b = .eq) (h2 : compositeCmp specs b c = .eq) :
    compositeCmp specs a c = .eq := by
  rw [compositeCmp_congr_left specs a b c ((compositeCmp_eq_iff specs a b).mp h1)]
  exact h2

lemma stableInsert_perm {α : Type} (cmp : α → α → Ordering) (a : α) :
    ∀ l : List α, (stableInsert cmp a l).Perm (a :: l) := by
  intro l
  induction l with
  | nil => exact List.Perm.refl _
  | cons b bs ih =>
      rw [stableInsert]
      by_cases hab : cmp a b = .gt
      · rw [if_pos hab]
        exact (ih.cons b).trans (List.Perm.swap a b bs)
      · rw [if_neg hab]

lemma sortByCmp_perm {α : Type} (cmp : α → α → Ordering) :
    ∀ l : List α, (sortByCmp cmp l).Perm l := by
  intro l
  induction l with
  | nil => exact List.Perm.refl _
  | cons a as ih =>
      rw [sortByCmp]
      exact (stableInsert_perm cmp a (sortByCmp cmp as)).trans (ih.cons a)

lemma mem_stableInsert {α : Type} (cmp : α → α → Ordering) (a x : α) (l : List α) :
    x ∈ stableInsert cmp a l ↔ x = a ∨ x ∈ l := by
  rw [(stableInsert_perm cmp a l).mem_iff]
  simp

lemma stableInsert_pairwise {α : Type} (cmp : α → α → Ordering)
    (hswap : ∀ x y, cmp x y = (cmp y x).swap)
    (htrans : ∀ x y z, cmp x y ≠ .gt → cmp y z ≠ .gt → cmp x z ≠ .gt) (a : α) :
    ∀ l : List α, List.Pairwise (fun x y => cmp x y ≠ .gt) l →
      List.Pairwise (fun x y => cmp x y ≠ .gt) (stableInsert cmp a l) := by
  intro l
  induction l with
  | nil => intro _; simp [stableInsert]
  | cons b bs ih =>
      intro hp
      obtain ⟨hb, hbs⟩ := List.pairwise_cons.mp hp
      rw [stableInsert]
      by_cases hab : cmp a b = .gt
      · rw [if_pos hab]
        rw [List.pairwise_cons]
        refine ⟨?_, ih hbs⟩
        intro x hx
        rcases (mem_stableInsert cmp a x bs).mp hx with hx | hx
        · subst hx
          rw [hswap b x, hab]
          simp [Ordering.swap]
        · exact hb x hx
      · rw [if_neg hab]
        rw [List.pairwise_cons]
        refine ⟨?_, hp⟩
        intro x hx
        rcases List.mem_cons.mp hx with hx | hx
        · subst hx; exact hab
        · exact htrans a b x hab (hb x hx)

lemma sortByCmp_pairwise {α : Type} (cmp : α → α → Ordering)
    (hswap : ∀ x y, cmp x y = (cmp y x).swap)
    (htrans : ∀ x y z, cmp x y ≠ .gt → cmp y z ≠ .gt → cmp x z ≠ .gt) :
    ∀ l : List α, List.Pairwise (fun x y => cmp x y ≠ .gt) (sortByCmp cmp l) := by
  intro l
  induction l with
  | nil => simp [sortByCmp]
  | cons a as ih =>
      rw [sortByCmp]
      exact stableInsert_pairwise cmp hswap htrans a (sortByCmp cmp as) ih

lemma stableInsert_filter_pos {α : Type} (cmp : α → α → Ordering) (p : α → Bool)
    (a : α) (hpa : p a = true) (hcl : ∀ b, p b = true → cmp a b ≠ .gt) :
    ∀ l : List α, (stableInsert cmp a l).filter p = a :: l.filter p := by
  intro l
  induction l with
  | nil => simp [stableInsert, List.filter, hpa]
  | cons b bs ih =>
      rw [stableInsert]
      by_cases hab : cmp a b = .gt
      · have hpb : p b = false := by
          cases hb : p b with
          | false => rfl
          | true => exact absurd hab (hcl b hb)
        rw [if_pos hab, List.filter_cons, List.filter_cons]
        rw [hpb]
        simp only [Bool.false_eq_true, if_false]
        exact ih
      · rw [if_neg hab, List.filter_cons, hpa]
        simp only [if_true]

lemma stableInsert_filter_neg {α : Type} (cmp : α → α → Ordering) (p : α → Bool)
    (a : α) (hpa : p a = false) :
    ∀ l : List α, (stableInsert cmp a l).filter p = l.filter p := by
  intro l
  induction l with
  | nil => simp [stableInsert, List.filter, hpa]
  | cons b bs ih =>
      rw [stableInsert]
      by_cases hab : cmp a b = .gt
      · rw [if_pos hab, List.filter_cons, List.filter_cons]
        rw [ih]
      · rw [if_neg hab, List.filter_cons, hpa]
        simp only [Bool.false_eq_true, if_false]

lemma sortByCmp_filter_class {α : Type} (cmp : α → α → Ordering) (p : α → Bool)
    (hcl : ∀ x y, p x = true → p y = true → cmp x y ≠ .gt) :
    ∀ l : List α, (sortByCmp cmp l).filter p = l.filter p := by
  intro l
  induction l with
  | nil => rfl
  | cons a as ih =>
      rw [sortByCmp]
      by_cases hpa : p a = true
      · rw [stableInsert_filter_pos cmp p a hpa (fun b hb => hcl a b hpa hb), ih,
          List.filter_cons, hpa]
        simp only [if_true]
      · have hpa2 : p a = false := by
          cases h : p a with
          | false => rfl
          | true => exact absurd h hpa
        rw [stableInsert_filter_neg cmp p a hpa2, ih, List.filter_cons, hpa2]
        simp only [Bool.false_eq_true, if_false]

lemma compositeCmp_append_of_eq {α : Type} (s : SortSpec α) (a b : α) :
    ∀ specs : List (SortSpec α), compositeCmp specs a b = .eq →
      compositeCmp (specs ++ [s]) a b = specCmp s a b := by
  intro specs
  induction specs with
  | nil =>
      intro _
      rw [List.nil_append, compositeCmp]
      cases hs : specCmp s a b with
      | eq => rfl
      | lt => rfl
      | gt => rfl
  | cons t rest ih =>
      intro h
      rw [compositeCmp] at h
      rw [List.cons_append, compositeCmp]
      cases ht : specCmp t a b with
      | eq =>
          rw [ht] at h
          exact ih h
      | lt => rw [ht] at h; exact absurd h (by simp)
      | gt => rw [ht] at h; exact absurd h (by simp)

lemma compositeCmp_append_of_ne {α : Type} (s : SortSpec α) (a b : α) :
    ∀ specs : List (SortSpec α), compositeCmp specs a b ≠ .eq →
      compositeCmp (specs ++ [s]) a b = compositeCmp specs a b := by
  intro specs
  induction specs with
  | nil => intro h; exact absurd rfl h
  | cons t rest ih =>
      intro h
      rw [compositeCmp] at h
      rw [List.cons_append, compositeCmp, compositeCmp]
      cases ht : specCmp t a b with
      | eq =>
          rw [ht] at h
          exact ih h
      | lt => rfl
      | gt => rfl

/-- C3: an ordered sequence built by `order_by` and chained `then_by` calls is
a stable multi-key sort: the materialized list is a permutation of the
source, sorted under the composite comparator (criteria in declared order,
first non-zero result wins); elements that compare equal under every
specified key retain their relative source order (the filter of the result
to any equality class equals the filter of the source); `then_by`/
`then_by_descending` append their criterion as the least significant one,
so the appended key decides only between elements equal under all earlier
keys and is ignored otherwise; on `[(1,2),(1,1),(0,5)]`, ascending by first
then ascending by second yields `[(0,5),(1,1),(1,2)]`. -/
theorem orderBy_thenBy_stable_multikey {α : Type}
    (src : List α) (specs : List (SortSpec α)) (a₀ : α)
    (o : OrderedSeq α) (key : α → Int) (s : SortSpec α) (a b : α) :
    (materializeOrd ⟨src, specs⟩).Perm src ∧
    List.Pairwise (fun x y => compositeCmp specs x y ≠ .gt) (materializeOrd ⟨src, specs⟩) ∧
    ((materializeOrd ⟨src, specs⟩).filter
        (fun x => decide (compositeCmp specs x a₀ = .eq)) =
      src.filter (fun x => decide (compositeCmp specs x a₀ = .eq))) ∧
    thenBy o key = ⟨o.source, o.specs ++ [⟨key, false⟩]⟩ ∧
    thenByDescending o key = ⟨o.source, o.specs ++ [⟨key, true⟩]⟩ ∧
    orderBy src key = ⟨src, [⟨key, false⟩]⟩ ∧
    (compositeCmp specs a b = .eq →
      compositeCmp (specs ++ [s]) a b = specCmp s a b) ∧
    (compositeCmp specs a b ≠ .eq →
      compositeCmp (specs ++ [s]) a b = compositeCmp specs a b) ∧
    materializeOrd (thenBy (orderBy [((1 : Int), (2 : Int)), (1, 1), (0, 5)] Prod.fst)
        Prod.snd) = [(0, 5), (1, 1), (1, 2)] := by
  refine ⟨sortByCmp_perm _ src,
    sortByCmp_pairwise _ (compositeCmp_swap specs) (compositeCmp_notGt_trans specs) src,
    ?_, rfl, rfl, rfl, compositeCmp_append_of_eq s a b specs,
    compositeCmp_append_of_ne s a b specs, by decide⟩
  apply sortByCmp_filter_class
  intro x y hx hy
  have hx2 : compositeCmp specs x a₀ = .eq := of_decide_eq_true hx
  have hy2 : compositeCmp specs y a₀ = .eq := of_decide_eq_true hy
  have hya : compositeCmp specs a₀ y = .eq := by
    rw [compositeCmp_swap specs a₀ y, hy2]
    rfl
  have hxy : compositeCmp specs x y = .eq := compositeCmp_eq_trans specs x a₀ y hx2 hya
  rw [hxy]
  simp

/-- Witness for C3: the concrete composite-ordering example and a concrete
tie-break decided by the appended `then_by` key. -/
theorem orderBy_thenBy_stable_multikey_witness :
    materializeOrd (thenBy (orderBy [((1 : Int), (2 : Int)), (1, 1), (0, 5)] Prod.fst)
        Prod.snd) = [(0, 5), (1, 1), (1, 2)] ∧
    compositeCmp ([⟨Prod.fst, false⟩] ++ [⟨Prod.snd, false⟩]) ((1 : Int), (2 : Int)) (1, 1) =
      specCmp ⟨Prod.snd, false⟩ ((1 : Int), (2 : Int)) (1, 1) := by
  have h := orderBy_thenBy_stable_multikey ([] : List (Int × Int)) [⟨Prod.fst, false⟩]
    ((0 : Int), (0 : Int)) (orderBy [] Prod.fst) Prod.fst ⟨Prod.snd, false⟩ (1, 2) (1, 1)
  exact ⟨h.2.2.2.2.2.2.2.2, h.2.2.2.2.2.2.1 (by decide)⟩
